import Mathlib

/-!
Shallow embedding of the graph-analytics engine of the TCMKG-nx
repository (the analysis service concatenated into src/index.tsx,
together with the data model of src/types.ts), and proofs about it.

Modelling conventions, used throughout:

* JavaScript numbers are modelled as exact rationals.  The source
  applies Math.sqrt at the end of its euclidean distance and of the
  local k-means distance and nowhere else; Real.sqrt is strictly
  monotone on nonnegative inputs, so every comparison the engine makes
  (argmin selection, merge-pair selection) and every zero test is
  unchanged when the squared value is used instead.  The embedding
  therefore keeps euclidean distances squared; wherever a distance
  value is recorded (the dendrogram merge distance), the recorded
  rational is the square of the number the source records.
* A JS Map or Set is iterated in insertion order and updating an
  existing key keeps its position; both are modelled as association
  lists (mapSet / mapGet / addSet below) with exactly that behaviour.
* A JS Record (plain object) with integer-like keys is iterated in
  ascending numeric key order; the one place the engine does this
  (the neighbour-label counts of the community detector) is modelled
  by sorting the entries by key before the scan.
* A JS Map keyed by strings that the source builds by serialising a
  pair as "a|b" and later splitting on "|" is modelled as a map keyed
  by the pair itself; for names not containing the character the two
  are identical.
* Lookups of absent Record/Map keys yield undefined in JS; where the
  source relies on this (adjacency maps, BFS distance maps) the model
  uses Option, with none playing the role of undefined.
-/

namespace TCMKG

/-- JS Map modelled as an insertion-ordered association list: set
replaces the value in place when the key is present, else appends the
new entry at the end (insertion order of a JS Map). -/
def mapSet {κ α : Type} [DecidableEq κ] : List (κ × α) → κ → α → List (κ × α)
  | [], k, v => [(k, v)]
  | (k', v') :: rest, k, v =>
    if k' = k then (k, v) :: rest else (k', v') :: mapSet rest k v

/-- JS Map.get: first entry with the key, none when absent. -/
def mapGet {κ α : Type} [DecidableEq κ] : List (κ × α) → κ → Option α
  | [], _ => none
  | (k', v') :: rest, k => if k' = k then some v' else mapGet rest k

/-- JS Set.add modelled on an insertion-ordered duplicate-free list. -/
def addSet {α : Type} [DecidableEq α] (s : List α) (x : α) : List α :=
  if s.contains x then s else s ++ [x]

/-- Stable insertion, modelling Array.prototype.sort (stable since
ES2019).  le y x reads: y may stay in front of x; an element inserted
later than the accumulated ones therefore lands after equal keys. -/
def sInsert {α : Type} (le : α → α → Bool) (x : α) : List α → List α
  | [] => [x]
  | y :: ys => if le y x then y :: sInsert le x ys else x :: y :: ys

/-- Stable sort by repeated insertion (see sInsert). -/
def sSort {α : Type} (le : α → α → Bool) (l : List α) : List α :=
  l.foldl (fun acc x => sInsert le x acc) []

/-- RawEntity (src/types.ts): a typed named entity. -/
structure RawEntity where
  type : String
  name : String
deriving DecidableEq, Repr

/-- RawRelation (src/types.ts): a directed typed edge between names. -/
structure RawRelation where
  source : String
  relation : String
  target : String
deriving DecidableEq, Repr

/-- GraphNode (src/types.ts), restricted to the fields the analysis
algorithms read or write: id, group, metrics.community (community is
the only metrics field any claim touches; the others are initialised
to zero and never read inside the engine) and clusters.kmeans. -/
structure GraphNode where
  id : String
  group : String := ""
  community : Nat := 0
  kmeans : Option Nat := none
deriving DecidableEq, Repr

/-- The association annotation a mined-rule link carries. -/
structure AssocAnnotation where
  support : ℚ
  confidence : ℚ
  lift : ℚ
  isRule : Bool
deriving DecidableEq, Repr

/-- GraphLink (src/types.ts).  In the source, source/target may also be
resolved node objects (after D3 mutation); the engine's own callers
pass string endpoints and getAdjacency immediately projects an object
back to its id, so endpoints are modelled as strings. -/
structure GraphLink where
  source : String
  target : String
  type : String := ""
  weight : Option ℚ := none
  association : Option AssocAnnotation := none
deriving DecidableEq, Repr

/-- One neighbour entry of the adjacency map. -/
structure AdjEntry where
  id : String
  weight : ℚ
deriving DecidableEq, Repr

/-- The effective weight of one link inside getAdjacency: the JS
expression (l.weight || 1) is falsy-aware, so a missing weight and a
weight of 0 both fall back to 1. -/
def linkW (weighted : Bool) (l : GraphLink) : ℚ :=
  if weighted then
    (match l.weight with
      | some q => if q = 0 then 1 else q
      | none => 1)
  else 1

/-- The per-link step of getAdjacency: append an entry onto the
source's list if that key exists, then onto the target's list if that
key exists — there is no check that the OTHER endpoint is a known
id. -/
def adjStep (weighted : Bool) (adj : String → Option (List AdjEntry))
    (l : GraphLink) : String → Option (List AdjEntry) :=
  let w := linkW weighted l
  let adj1 : String → Option (List AdjEntry) := fun x =>
    if x = l.source then (adj l.source).map (· ++ [⟨l.target, w⟩]) else adj x
  fun x =>
    if x = l.target then (adj1 l.target).map (· ++ [⟨l.source, w⟩]) else adj1 x

/-- getAdjacency (src/index.tsx).  The Map from node id to neighbour
entries is modelled as a function into Option; none models a missing
key.  Every node id is first bound to []; then every link is folded
through adjStep. -/
def getAdjacency (nodes : List GraphNode) (links : List GraphLink)
    (weighted : Bool) : String → Option (List AdjEntry) :=
  links.foldl (adjStep weighted)
    (fun x => if (nodes.map GraphNode.id).contains x then some [] else none)

/-- DistanceType (src/types.ts). -/
inductive DistanceType
  | euclidean
  | chebyshev
  | manhattan
  | lance
deriving DecidableEq, Repr

/-- ClusterMethod (src/types.ts). -/
inductive ClusterMethod
  | complete
  | average
  | centroid
deriving DecidableEq, Repr

/-- calculateDistance (src/index.tsx).  The source iterates over
vecA's indices reading vecB[i]; all callers pass equal-length vectors,
modelled with zipWith.  The euclidean branch keeps the squared value
(Math.sqrt omitted, see the header comment). -/
def calculateDistance (vecA vecB : List ℚ) (t : DistanceType) : ℚ :=
  match t with
  | .manhattan => (List.zipWith (fun a b => |a - b|) vecA vecB).foldl (· + ·) 0
  | .chebyshev => (List.zipWith (fun a b => |a - b|) vecA vecB).foldl max 0
  | .lance =>
      (List.zipWith
        (fun a b => if |a| + |b| = 0 then 0 else |a - b| / (|a| + |b|))
        vecA vecB).foldl (· + ·) 0
  | .euclidean => (List.zipWith (fun a b => (a - b) ^ 2) vecA vecB).foldl (· + ·) 0

/-- DendrogramNode (src/types.ts): name, optional distance (absent
modelled as 0), optional isLeaf flag (absent modelled as false),
optional children list (absent modelled as []). -/
inductive DendrogramNode where
  | mk (name : String) (distance : ℚ) (isLeaf : Bool)
      (children : List DendrogramNode)

/-- The name field of a dendrogram node. -/
def dendroName : DendrogramNode → String
  | .mk n _ _ _ => n

/-- The distance field of a dendrogram node. -/
def dendroDistance : DendrogramNode → ℚ
  | .mk _ d _ _ => d

/-- The children field of a dendrogram node. -/
def dendroChildren : DendrogramNode → List DendrogramNode
  | .mk _ _ _ cs => cs

/-- Number of leaves (nodes with an empty children list); a node whose
children list has a length other than 0 or 2 never occurs in trees the
clusterer builds and counts no leaves. -/
def countLeaves : DendrogramNode → Nat
  | .mk _ _ _ [] => 1
  | .mk _ _ _ [a, b] => countLeaves a + countLeaves b
  | .mk _ _ _ _ => 0

/-- Number of internal nodes (nodes with a nonempty children list). -/
def countInternal : DendrogramNode → Nat
  | .mk _ _ _ [] => 0
  | .mk _ _ _ [a, b] => 1 + countInternal a + countInternal b
  | .mk _ _ _ _ => 1

/-- The leaf names, left to right. -/
def leafNames : DendrogramNode → List String
  | .mk n _ _ [] => [n]
  | .mk _ _ _ [a, b] => leafNames a ++ leafNames b
  | .mk _ _ _ _ => []

/-- Well-shaped merge tree: a leaf carries isLeaf = true and no
children; an internal node carries isLeaf = false and exactly two
children.  True of every tree calculateHierarchicalTree builds from a
nonempty node set. -/
def wfTree : DendrogramNode → Bool
  | .mk _ _ true [] => true
  | .mk _ _ false [a, b] => wfTree a && wfTree b
  | _ => false

/-- One working cluster of the agglomerative loop. -/
structure Cluster where
  id : String
  members : List String
  vec : List ℚ
  tree : DendrogramNode

/-- The feature vector of a node: its weighted adjacency row against
allNodeIds, 0 on the diagonal and 0 for non-neighbours.  In the source
this is a Record indexed by node id; the value depends only on the id,
so it is modelled as a function of the id. -/
def hcVector (adj : String → Option (List AdjEntry)) (allNodeIds : List String)
    (nid : String) : List ℚ :=
  allNodeIds.map fun x =>
    if x = nid then 0
    else
      match (adj nid).bind (fun l => l.find? (fun e => e.id = x)) with
      | some e => e.weight
      | none => 0

/-- Math.max over a spread array; the empty case (JS -Infinity) is
unreachable because cluster member lists are never empty. -/
def maxOfList : List ℚ → ℚ
  | [] => 0
  | d :: ds => ds.foldl max d

/-- getClusterDist (inside calculateHierarchicalTree): centroid linkage
compares the cluster mean vectors, otherwise all pairwise member
distances are taken and complete linkage keeps the largest while
average linkage takes their mean. -/
def getClusterDist (vectors : String → List ℚ) (dt : DistanceType)
    (m : ClusterMethod) (c1 c2 : Cluster) : ℚ :=
  match m with
  | .centroid => calculateDistance c1.vec c2.vec dt
  | _ =>
    let dists := c1.members.flatMap fun m1 =>
      c2.members.map fun m2 => calculateDistance (vectors m1) (vectors m2) dt
    if m = .complete then maxOfList dists
    else (dists.foldl (· + ·) 0) / (dists.length : ℚ)

/-- The index pairs (i, j) with i < j < n, in the traversal order of
the source's nested for loops. -/
def pairIdxList (n : Nat) : List (Nat × Nat) :=
  (List.range n).flatMap fun i =>
    ((List.range n).drop (i + 1)).map fun j => (i, j)

/-- The minimum-distance pair scan: minD starts at Infinity (modelled
as none) and a pair is kept only under a strict improvement, so the
first pair attaining the final minimum wins. -/
def findMinPair (dist : Nat → Nat → ℚ) (n : Nat) : Option (ℚ × Nat × Nat) :=
  (pairIdxList n).foldl
    (fun acc p =>
      let d := dist p.1 p.2
      match acc with
      | none => some (d, p.1, p.2)
      | some (minD, i, j) =>
        if d < minD then some (d, p.1, p.2) else some (minD, i, j))
    none

/-- Placeholder cluster for out-of-range list indexing; the indices
used are always in range. -/
def defaultCluster : Cluster := ⟨"", [], [], .mk "" 0 false []⟩

/-- clusters.filter((_, idx) => idx !== i && idx !== j), written with
the running index made explicit. -/
def filterIdxNe {α : Type} (i j : Nat) : Nat → List α → List α
  | _, [] => []
  | idx, x :: xs =>
    if idx ≠ i ∧ idx ≠ j then x :: filterIdxNe i j (idx + 1) xs
    else filterIdxNe i j (idx + 1) xs

/-- One merge of the agglomerative loop: the clusters at positions i
and j are removed, and a merged cluster (member union, centroid
vector, a binary tree node recording the merge distance) is appended.
The source gives the merged cluster a fresh random id which nothing
ever reads; it is modelled as "merged". -/
def mergeClusters (vectors : String → List ℚ) (L : List Cluster)
    (i j : Nat) (minD : ℚ) : List Cluster :=
  let c1 := L.getD i defaultCluster
  let c2 := L.getD j defaultCluster
  let newMembers := c1.members ++ c2.members
  let newVec : List ℚ :=
    match newMembers with
    | [] => []
    | m0 :: _ =>
      (List.range (vectors m0).length).map fun d =>
        ((newMembers.map fun m => (vectors m).getD d 0).foldl (· + ·) 0) /
          (newMembers.length : ℚ)
  filterIdxNe i j 0 L ++
    [{ id := "merged", members := newMembers, vec := newVec,
       tree := .mk "" minD false [c1.tree, c2.tree] }]

/-- The agglomeration loop (while clusters.length > 1), with explicit
fuel; each iteration shortens the list by one, so fuel equal to the
initial length always suffices.  The none branch models the source's
defensive break, unreachable because with at least two clusters the
scan always selects the first pair. -/
def hcLoop (vectors : String → List ℚ) (dt : DistanceType) (m : ClusterMethod) :
    Nat → List Cluster → List Cluster
  | 0, L => L
  | fuel + 1, L =>
    if L.length ≤ 1 then L
    else
      match findMinPair
          (fun i j => getClusterDist vectors dt m
            (L.getD i defaultCluster) (L.getD j defaultCluster)) L.length with
      | none => L
      | some (minD, i, j) => hcLoop vectors dt m fuel (mergeClusters vectors L i j minD)

/-- The configuration record of the hierarchical clusterer. -/
structure HCConfig where
  distanceType : DistanceType
  method : ClusterMethod

/-- calculateHierarchicalTree (src/index.tsx): build the weighted
adjacency, one feature vector per node, one singleton cluster per node
carrying a leaf tree, then agglomerate until one cluster remains and
return its tree; an empty input falls back to a childless "Root" node. -/
def calculateHierarchicalTree (nodes : List GraphNode) (links : List GraphLink)
    (config : HCConfig) : DendrogramNode :=
  let adj := getAdjacency nodes links true
  let allNodeIds := nodes.map GraphNode.id
  let vectors := hcVector adj allNodeIds
  let clusters := nodes.enum.map fun p =>
    ({ id := "c_" ++ toString p.1, members := [p.2.id], vec := vectors p.2.id,
       tree := .mk p.2.id 0 true [] } : Cluster)
  match hcLoop vectors config.distanceType config.method clusters.length clusters with
  | c :: _ => c.tree
  | [] => .mk "Root" 0 false []

/-- The k-means local distance (squared euclidean; sqrt omitted, see
the header comment). -/
def distSq (a b : List ℚ) : ℚ :=
  (List.zipWith (fun x y => (x - y) ^ 2) a b).foldl (· + ·) 0

/-- The argmin scan of the assignment step: minDist starts at Infinity
(none), cIdx at 0, and a centroid is adopted only under a strict
improvement, so the first centroid attaining the final minimum wins
and an empty centroid list leaves cIdx = 0. -/
def nearestIdx (v : List ℚ) (cs : List (List ℚ)) : Nat :=
  (cs.foldl
    (fun (acc : Option ℚ × Nat × Nat) c =>
      let d := distSq v c
      match acc.1 with
      | none => (some d, acc.2.2, acc.2.2 + 1)
      | some minD =>
        if d < minD then (some d, acc.2.2, acc.2.2 + 1)
        else (acc.1, acc.2.1, acc.2.2 + 1))
    (none, 0, 0)).2.1

/-- The scan step of nearestIdx under its own name (definitionally the
lambda inlined in nearestIdx). -/
def nearStep (v : List ℚ) (acc : Option ℚ × Nat × Nat) (c : List ℚ) :
    Option ℚ × Nat × Nat :=
  let d := distSq v c
  match acc.1 with
  | none => (some d, acc.2.2, acc.2.2 + 1)
  | some minD =>
    if d < minD then (some d, acc.2.2, acc.2.2 + 1)
    else (acc.1, acc.2.1, acc.2.2 + 1)

/-- Elementwise accumulation of a vector onto a centroid row
(newCentroids[c][dim] += val for each dim); rows and vectors always
have equal length, modelled with zipWith. -/
def vecAddInto (row v : List ℚ) : List ℚ := List.zipWith (· + ·) row v

/-- The centroid update step: k fresh all-zero accumulator rows of the
feature dimension, one pass over the vectors adding each onto its
assigned row and bumping its count, then each row with a positive
count is divided by the count while a row with count zero is kept —
the ZERO ACCUMULATOR, not the previous centroid. -/
def kmUpdate (k dim : Nat) (vectors : List (List ℚ)) (assigns : List Nat) :
    List (List ℚ) :=
  let sc := (vectors.zip assigns).foldl
    (fun (acc : List (List ℚ) × List Nat) p =>
      (List.modify (fun row => vecAddInto row p.1) p.2 acc.1,
       List.modify (· + 1) p.2 acc.2))
    (List.replicate k (List.replicate dim (0 : ℚ)), List.replicate k (0 : Nat))
  sc.1.enum.map fun p =>
    if 0 < sc.2.getD p.1 0 then p.2.map (· / (sc.2.getD p.1 0 : ℚ)) else p.2

/-- The fixed-budget Lloyd iteration: each round reassigns every
vector to its nearest centroid and then recomputes the centroids; the
assignments passed in are overwritten wholesale by the first round. -/
def kmLoop (k dim : Nat) (vectors : List (List ℚ)) :
    Nat → List (List ℚ) → List Nat → List (List ℚ) × List Nat
  | 0, cs, asg => (cs, asg)
  | t + 1, cs, _ =>
    let asg := vectors.map fun v => nearestIdx v cs
    let cs2 := kmUpdate k dim vectors asg
    kmLoop k dim vectors t cs2 asg

/-- The result record of calculateVectorKMeans: the name-to-cluster
Record (modelled as a function into Option) and the annotated nodes. -/
structure KMeansResult where
  result : String → Option Nat
  nodes : List GraphNode

/-- calculateVectorKMeans (src/index.tsx): select the target-typed
entities, build the binary incidence vectors over the sorted feature
vocabulary (the other endpoints of relations touching a target-typed
entity), run 10 rounds of Lloyd iteration starting from the first k
vectors (all of them when fewer than k exist — the source's extra
reassignment branch is the same value), and report the assignment of
each target entity. -/
def calculateVectorKMeans (entities : List RawEntity)
    (relations : List RawRelation) (targetType : String) (k : Nat) :
    KMeansResult :=
  let targetNodes := entities.filter fun e => e.type == targetType
  if targetNodes.length = 0 then ⟨fun _ => none, []⟩
  else
    let relevantRelations := relations.filter fun r =>
      (entities.any fun e => e.name == r.source && e.type == targetType) ||
      (entities.any fun e => e.name == r.target && e.type == targetType)
    let tf := relevantRelations.foldl
      (fun (acc : List String × List (String × List String)) r =>
        let p : String × String :=
          if ((entities.find? fun e => e.name == r.source).map RawEntity.type)
              = some targetType
          then (r.source, r.target) else (r.target, r.source)
        (addSet acc.1 p.2,
         mapSet acc.2 p.1 (addSet ((mapGet acc.2 p.1).getD []) p.2)))
      ([], [])
    let featureList := sSort (fun a b => decide (a ≤ b)) tf.1
    let vectors := targetNodes.map fun n =>
      featureList.map fun f =>
        if ((mapGet tf.2 n.name).getD []).contains f then (1 : ℚ) else 0
    let res := kmLoop k featureList.length vectors 10 (vectors.take k)
      (List.replicate vectors.length 0)
    let assignments := res.2
    let result : String → Option Nat := targetNodes.enum.foldl
      (fun f p => fun x =>
        if x = p.2.name then some (assignments.getD p.1 0) else f x)
      (fun _ => none)
    ⟨result,
     targetNodes.map fun n =>
       { id := n.name, group := n.type, kmeans := result n.name }⟩

/-- The target-typed entities of calculateVectorKMeans (definitionally
its first let binding). -/
def kmTargetNodes (entities : List RawEntity) (targetType : String) :
    List RawEntity :=
  entities.filter fun e => e.type == targetType

/-- The feature vocabulary accumulator of calculateVectorKMeans
(definitionally its tf binding over the relevant relations). -/
def kmFeatureTF (entities : List RawEntity) (relations : List RawRelation)
    (targetType : String) : List String × List (String × List String) :=
  (relations.filter fun r =>
      (entities.any fun e => e.name == r.source && e.type == targetType) ||
      (entities.any fun e => e.name == r.target && e.type == targetType)).foldl
    (fun (acc : List String × List (String × List String)) r =>
      let p : String × String :=
        if ((entities.find? fun e => e.name == r.source).map RawEntity.type)
            = some targetType
        then (r.source, r.target) else (r.target, r.source)
      (addSet acc.1 p.2,
       mapSet acc.2 p.1 (addSet ((mapGet acc.2 p.1).getD []) p.2)))
    ([], [])

/-- The sorted feature vocabulary of calculateVectorKMeans. -/
def kmFeatureList (entities : List RawEntity) (relations : List RawRelation)
    (targetType : String) : List String :=
  sSort (fun a b => decide (a ≤ b)) (kmFeatureTF entities relations targetType).1

/-- The binary incidence vectors of calculateVectorKMeans, one per
target-typed entity over the sorted feature vocabulary. -/
def kmVectors (entities : List RawEntity) (relations : List RawRelation)
    (targetType : String) : List (List ℚ) :=
  (kmTargetNodes entities targetType).map fun n =>
    (kmFeatureList entities relations targetType).map fun f =>
      if ((mapGet (kmFeatureTF entities relations targetType).2 n.name).getD
          []).contains f then (1 : ℚ) else 0

/-- One pass of label propagation: visit the given order; a node with
no neighbours is skipped; otherwise the neighbour labels are counted
(a Record keyed by numbers — JS iterates such keys in ascending
numeric order, hence the sort of the entries), the first label
attaining the maximal count is taken (strict improvement scan starting
from maxC = -1), and the node adopts it when it differs from its own;
the Bool result records whether any visit of the pass changed a label. -/
def lpPass (adj : String → Option (List AdjEntry)) (order : List GraphNode)
    (labels0 : String → Nat) : (String → Nat) × Bool :=
  order.foldl
    (fun (acc : (String → Nat) × Bool) n =>
      let labels := acc.1
      let neighbors := (adj n.id).getD []
      if neighbors.isEmpty then acc
      else
        let counts := neighbors.foldl
          (fun m nb =>
            mapSet m (labels nb.id) ((mapGet m (labels nb.id)).getD 0 + 1))
          ([] : List (Nat × Nat))
        let entries := sSort (fun a b => decide (a.1 ≤ b.1)) counts
        let best := entries.foldl
          (fun (bl : Int × Int) e =>
            if (e.2 : Int) > bl.2 then ((e.1 : Int), (e.2 : Int)) else bl)
          (-1, -1)
        if best.1 ≠ -1 ∧ labels n.id ≠ best.1.toNat then
          (fun x => if x = n.id then best.1.toNat else labels x, true)
        else acc)
    (labels0, false)

/-- The propagation loop: up to 20 passes, each over a freshly drawn
order, stopping early after a pass that changed nothing.  i is the
pass number, handed to the order oracle. -/
def lpLoop (adj : String → Option (List AdjEntry))
    (orders : Nat → List GraphNode) :
    Nat → Nat → (String → Nat) → String → Nat
  | _, 0, labels => labels
  | i, fuel + 1, labels =>
    let r := lpPass adj (orders i) labels
    if r.2 then lpLoop adj orders (i + 1) fuel r.1 else r.1

/-- The result record of calculateBipartiteCommunity. -/
structure CommunityResult where
  nodes : List GraphNode
  links : List GraphLink

/-- calculateBipartiteCommunity (src/index.tsx): induce the subgraph
over the two types (dropping relations with an endpoint outside it and
self-loops), give every node its index as initial label, run label
propagation, then remap the surviving label values to a dense range in
order of first appearance and store each node's community.  The source
draws each pass's visiting order with Math.random; the embedding takes
the orders as an oracle parameter and the theorems quantify over it.
The source's final (labelMap.get(...) || 0) is the index in the
first-appearance list of distinct labels: the lookup always succeeds,
and the falsy fallback fires exactly on index 0, where it returns 0. -/
def calculateBipartiteCommunity (entities : List RawEntity)
    (relations : List RawRelation) (frontType backType : String)
    (orders : Nat → List GraphNode) : CommunityResult :=
  let frontNodes := entities.filter fun e => e.type == frontType
  let backNodes := entities.filter fun e => e.type == backType
  let validNames := (frontNodes ++ backNodes).map RawEntity.name
  let validLinks := relations.filter fun r =>
    validNames.contains r.source && validNames.contains r.target &&
      r.source != r.target
  let nodes : List GraphNode := (frontNodes ++ backNodes).map fun e =>
    { id := e.name, group := e.type }
  let links : List GraphLink := validLinks.map fun r =>
    { source := r.source, target := r.target, type := r.relation }
  let adj := getAdjacency nodes links false
  let labels0 : String → Nat := nodes.enum.foldl
    (fun f p => fun x => if x = p.2.id then p.1 else f x) (fun _ => 0)
  let labels := lpLoop adj orders 0 20 labels0
  let uniqueLabels := (nodes.map GraphNode.id).foldl
    (fun u x => addSet u (labels x)) []
  ⟨nodes.map fun n => { n with community := uniqueLabels.indexOf (labels n.id) },
   links⟩

/-- The per-node visit of lpPass under its own name (definitionally
the lambda inlined in lpPass). -/
def lpStep (adj : String → Option (List AdjEntry))
    (acc : (String → Nat) × Bool) (n : GraphNode) : (String → Nat) × Bool :=
  let labels := acc.1
  let neighbors := (adj n.id).getD []
  if neighbors.isEmpty then acc
  else
    let counts := neighbors.foldl
      (fun m nb =>
        mapSet m (labels nb.id) ((mapGet m (labels nb.id)).getD 0 + 1))
      ([] : List (Nat × Nat))
    let entries := sSort (fun a b => decide (a.1 ≤ b.1)) counts
    let best := entries.foldl
      (fun (bl : Int × Int) e =>
        if (e.2 : Int) > bl.2 then ((e.1 : Int), (e.2 : Int)) else bl)
      (-1, -1)
    if best.1 ≠ -1 ∧ labels n.id ≠ best.1.toNat then
      (fun x => if x = n.id then best.1.toNat else labels x, true)
    else acc

/-- The induced two-type node list of calculateBipartiteCommunity. -/
def bcNodes (entities : List RawEntity) (frontType backType : String) :
    List GraphNode :=
  ((entities.filter fun e => e.type == frontType) ++
    (entities.filter fun e => e.type == backType)).map fun e =>
    { id := e.name, group := e.type }

/-- The induced two-type link list of calculateBipartiteCommunity
(both endpoints among the induced names, self-loops dropped). -/
def bcLinks (entities : List RawEntity) (relations : List RawRelation)
    (frontType backType : String) : List GraphLink :=
  (relations.filter fun r =>
    (((entities.filter fun e => e.type == frontType) ++
      (entities.filter fun e => e.type == backType)).map
        RawEntity.name).contains r.source &&
    (((entities.filter fun e => e.type == frontType) ++
      (entities.filter fun e => e.type == backType)).map
        RawEntity.name).contains r.target &&
    r.source != r.target).map fun r =>
    { source := r.source, target := r.target, type := r.relation }

/-- The initial labelling of calculateBipartiteCommunity: each induced
node id is sent to its (last) index in the node list. -/
def bcLabels0 (entities : List RawEntity) (frontType backType : String) :
    String → Nat :=
  (bcNodes entities frontType backType).enum.foldl
    (fun f p => fun x => if x = p.2.id then p.1 else f x) (fun _ => 0)

/-- The final labelling of calculateBipartiteCommunity: 20 passes of
label propagation over the induced adjacency. -/
def bcLabels (entities : List RawEntity) (relations : List RawRelation)
    (frontType backType : String) (orders : Nat → List GraphNode) :
    String → Nat :=
  lpLoop
    (getAdjacency (bcNodes entities frontType backType)
      (bcLinks entities relations frontType backType) false)
    orders 0 20 (bcLabels0 entities frontType backType)

/-- The first-appearance list of surviving label values. -/
def bcUnique (entities : List RawEntity) (relations : List RawRelation)
    (frontType backType : String) (orders : Nat → List GraphNode) :
    List Nat :=
  ((bcNodes entities frontType backType).map GraphNode.id).foldl
    (fun u x => addSet u (bcLabels entities relations frontType backType
      orders x)) []

/-- AssociationRuleResult (src/types.ts). -/
structure AssociationRuleResult where
  source : String
  target : String
  support : ℚ
  confidence : ℚ
  lift : ℚ
  cooccur : Nat
deriving DecidableEq, Repr

/-- The result record of calculateAssociationRules. -/
structure AssociationResult where
  rules : List AssociationRuleResult
  nodes : List GraphNode
  links : List GraphLink

/-- The type of the first entity carrying a name (the source's
entities.find(...)?.type). -/
def typeOfName (entities : List RawEntity) (nm : String) : Option String :=
  (entities.find? fun e => e.name == nm).map RawEntity.type

/-- The transaction synthesis of calculateAssociationRules: one
transaction per relation whose source is front-typed and target
back-typed (key "direct_" ++ index), then one per connector — a
relation source whose direct-target set contains at least one
front-typed and one back-typed item — holding those items restricted
to the two types (a connector transaction whose key equals an earlier
key overwrites it in place, as Map.set does). -/
def assocTransactions (entities : List RawEntity)
    (relations : List RawRelation) (frontType backType : String) :
    List (String × List String) :=
  let transactions1 : List (String × List String) := relations.enum.foldl
    (fun m p =>
      if typeOfName entities p.2.source = some frontType ∧
         typeOfName entities p.2.target = some backType then
        mapSet m ("direct_" ++ toString p.1)
          (addSet (addSet [] p.2.source) p.2.target)
      else m) []
  let connectorMap : List (String × List String) := relations.foldl
    (fun m r => mapSet m r.source (addSet ((mapGet m r.source).getD []) r.target))
    []
  connectorMap.foldl
    (fun m p =>
      let fronts := p.2.filter fun i => typeOfName entities i == some frontType
      let backs := p.2.filter fun i => typeOfName entities i == some backType
      if fronts.length > 0 ∧ backs.length > 0 then
        mapSet m p.1 ((fronts ++ backs).foldl addSet [])
      else m) transactions1

/-- The single pass over the transactions that counts item occurrences
and front-back pair co-occurrences. -/
def assocCounts (entities : List RawEntity) (frontType backType : String)
    (transactions : List (String × List String)) :
    List (String × Nat) × List ((String × String) × Nat) :=
  transactions.foldl
    (fun (acc : List (String × Nat) × List ((String × String) × Nat)) t =>
      let arr := t.2
      (arr.foldl (fun m i => mapSet m i ((mapGet m i).getD 0 + 1)) acc.1,
       (arr.filter fun i => typeOfName entities i == some frontType).foldl
         (fun mp f =>
           (arr.filter fun i => typeOfName entities i == some backType).foldl
             (fun mp2 b => mapSet mp2 (f, b) ((mapGet mp2 (f, b)).getD 0 + 1))
             mp)
         acc.2))
    ([], [])

/-- calculateAssociationRules (src/index.tsx): synthesise the
transactions, count items and front-back pairs over them, keep each
pair whose support reaches minSupport and whose confidence
support/support(source) reaches minConfidence as a rule with
lift = confidence/support(target), sort the rules descending by lift
and derive the rule graph.  The source keys pair counts by the string
f ++ "|" ++ b and splits it back; the embedding keys them by the pair
itself (identical for names free of the bar character). -/
def calculateAssociationRules (entities : List RawEntity)
    (relations : List RawRelation) (frontType backType : String)
    (minSupport minConfidence : ℚ) : AssociationResult :=
  let transactions := assocTransactions entities relations frontType backType
  let totalTrans := transactions.length
  if totalTrans = 0 then ⟨[], [], []⟩
  else
    let ic := assocCounts entities frontType backType transactions
    let itemCounts := ic.1
    let rv := ic.2.foldl
      (fun (acc : List AssociationRuleResult × List String) p =>
        let source := p.1.1
        let target := p.1.2
        let support := (p.2 : ℚ) / (totalTrans : ℚ)
        let supportSource := ((mapGet itemCounts source).getD 0 : ℚ) / (totalTrans : ℚ)
        let supportTarget := ((mapGet itemCounts target).getD 0 : ℚ) / (totalTrans : ℚ)
        if support ≥ minSupport then
          let confidence := support / supportSource
          if confidence ≥ minConfidence then
            let lift := confidence / supportTarget
            (acc.1 ++ [⟨source, target, support, confidence, lift, p.2⟩],
             addSet (addSet acc.2 source) target)
          else acc
        else acc)
      ([], [])
    let rules := sSort (fun a b => decide (b.lift ≤ a.lift)) rv.1
    let graphNodes := rv.2.map fun id =>
      ({ id := id,
         group := match typeOfName entities id with
           | some t => if t = "" then "Unknown" else t
           | none => "Unknown" } : GraphNode)
    let graphLinks : List GraphLink := rules.map fun r =>
      { source := r.source, target := r.target, type := "assoc",
        association := some ⟨r.support, r.confidence, r.lift, true⟩ }
    ⟨rules, graphNodes, graphLinks⟩

/-- One ranking entry {id, val}. -/
structure RankEntry where
  id : String
  val : ℚ
deriving DecidableEq, Repr

/-- The BFS state of one Brandes source: visit stack S, predecessor
lists P, path counts sigma, distances d (none models an undefined
Record entry — an id outside the node set; the JS comparisons
undefined < 0 and undefined === x are both false), queue Q. -/
structure BrandesState where
  S : List String
  P : String → List String
  sigma : String → ℚ
  d : String → Option Int
  Q : List String

/-- The BFS loop of Brandes betweenness (while Q.length > 0), with
explicit fuel.  A node is enqueued only when its distance flips from
-1, which happens at most once per id, so the number of dequeues never
exceeds the node count and fuel = nodes.length always drains the
queue. -/
def brandesBFS (adj : String → Option (List AdjEntry)) :
    Nat → BrandesState → BrandesState
  | 0, st => st
  | fuel + 1, st =>
    match st.Q with
    | [] => st
    | v :: rest =>
      let st1 := { st with Q := rest, S := st.S ++ [v] }
      let st2 := ((adj v).getD []).foldl
        (fun s e =>
          let w := e.id
          let s1 :=
            if (match s.d w with | some x => decide (x < 0) | none => false) then
              { s with Q := s.Q ++ [w],
                       d := fun x => if x = w then some ((s.d v).getD 0 + 1) else s.d x }
            else s
          if s1.d w = some ((s1.d v).getD 0 + 1) then
            { s1 with
              sigma := fun x => if x = w then s1.sigma w + s1.sigma v else s1.sigma x,
              P := fun x => if x = w then s1.P w ++ [v] else s1.P x }
          else s1)
        st1
      brandesBFS adj fuel st2

/-- calculateBetweenness (src/index.tsx): for every source, one BFS
accumulating sigma and predecessors, then the dependency
back-propagation over the stack in reverse visit order, accumulating
into CB for every node other than the source. -/
def calculateBetweenness (nodes : List GraphNode)
    (adj : String → Option (List AdjEntry)) : String → ℚ :=
  let ids := nodes.map GraphNode.id
  nodes.foldl
    (fun CB s =>
      let st0 : BrandesState :=
        { S := [], P := fun _ => [], sigma := fun x => if x = s.id then 1 else 0,
          d := fun x => if x = s.id then some 0
            else if ids.contains x then some (-1) else none,
          Q := [s.id] }
      let st := brandesBFS adj nodes.length st0
      let fin := st.S.reverse.foldl
        (fun (acc : (String → ℚ) × (String → ℚ)) w =>
          let delta := (st.P w).foldl
            (fun dl v => fun x =>
              if x = v then dl v + (st.sigma v / st.sigma w) * (1 + dl w) else dl x)
            acc.1
          if w ≠ s.id then
            (delta, fun x => if x = w then acc.2 x + delta w else acc.2 x)
          else (delta, acc.2))
        (fun _ => 0, CB)
      fin.2)
    (fun _ => 0)

/-- The BFS of closeness centrality: queue of (id, distance) pairs,
visited set, running distance total and reached count; an id outside
the node set still counts when dequeued (its adjacency lookup just
yields nothing).  Fuel: every enqueue beyond the first adds a fresh id
drawn from some adjacency list, so 1 + the total length of the
adjacency lists of the nodes bounds the dequeues. -/
def closeBFS (adj : String → Option (List AdjEntry)) :
    Nat → List (String × Int) → List String → Int → Nat → Int × Nat
  | 0, _, _, total, count => (total, count)
  | fuel + 1, q, visited, total, count =>
    match q with
    | [] => (total, count)
    | (id, d) :: rest =>
      let total1 := if d > 0 then total + d else total
      let count1 := if d > 0 then count + 1 else count
      let st := ((adj id).getD []).foldl
        (fun (acc : List (String × Int) × List String) n =>
          if acc.2.contains n.id then acc
          else (acc.1 ++ [(n.id, d + 1)], acc.2 ++ [n.id]))
        (rest, visited)
      closeBFS adj fuel st.1 st.2 total1 count1

/-- calculateCloseness (src/index.tsx): BFS from every node;
closeness = reached count / distance total, or 0 when nothing beyond
the node itself was reached. -/
def calculateCloseness (nodes : List GraphNode)
    (adj : String → Option (List AdjEntry)) : String → ℚ :=
  let fuel := 1 + (nodes.map fun n => ((adj n.id).getD []).length).sum
  nodes.foldl
    (fun CC node =>
      let r := closeBFS adj fuel [(node.id, 0)] [node.id] 0 0
      fun x =>
        if x = node.id then (if 0 < r.2 then (r.2 : ℚ) / (r.1 : ℚ) else 0)
        else CC x)
    (fun _ => 0)

/-- The descending sort by val used by all three rankings (the JS
comparator (a, b) => b.val - a.val). -/
def sortRankDesc (l : List RankEntry) : List RankEntry :=
  sSort (fun a b => decide (b.val ≤ a.val)) l

/-- The full degree ranking before truncation: one entry per node,
val = neighbour-list length (link multiplicity counted, the JS
adj.get(id)?.length || 0), sorted descending. -/
def degreeRanking (nodes : List GraphNode)
    (adj : String → Option (List AdjEntry)) : List RankEntry :=
  sortRankDesc (nodes.map fun n =>
    ⟨n.id, (((adj n.id).map List.length).getD 0 : ℚ)⟩)

/-- The result record of calculateCentralityRankings. -/
structure CentralityRankings where
  degree : List RankEntry
  betweenness : List RankEntry
  closeness : List RankEntry

/-- calculateCentralityRankings (src/index.tsx): unweighted adjacency,
then the degree, betweenness and closeness rankings, each sorted
descending by val and SLICED TO THE FIRST FIVE entries before being
returned. -/
def calculateCentralityRankings (nodes : List GraphNode)
    (links : List GraphLink) : CentralityRankings :=
  let adj := getAdjacency nodes links false
  let degrees := degreeRanking nodes adj
  let CB := calculateBetweenness nodes adj
  let betweens := sortRankDesc (nodes.map fun n => ⟨n.id, CB n.id⟩)
  let CC := calculateCloseness nodes adj
  let closes := sortRankDesc (nodes.map fun n => ⟨n.id, CC n.id⟩)
  ⟨degrees.take 5, betweens.take 5, closes.take 5⟩

/-- GraphData (src/types.ts), restricted to the fields the engine
produces. -/
structure GraphData where
  nodes : List GraphNode
  links : List GraphLink

/-- The first pass of generateCooccurrenceGraph: for every relation
with a container-typed endpoint and an item-typed endpoint (either
direction, both directions of one relation may fire), register the
item under the container and collect it into the insertion-ordered
item set.  Returns (containerToItems, allItems). -/
def cooccurIndex (entities : List RawEntity) (relations : List RawRelation)
    (containerType itemType : String) :
    List (String × List String) × List String :=
  relations.foldl
    (fun (acc : List (String × List String) × List String) r =>
      let acc1 :=
        if ((entities.find? fun e =>
              e.name == r.source && e.type == containerType).isSome ∧
            (entities.find? fun e =>
              e.name == r.target && e.type == itemType).isSome) then
          (mapSet acc.1 r.source
            (addSet ((mapGet acc.1 r.source).getD []) r.target),
           addSet acc.2 r.target)
        else acc
      if ((entities.find? fun e =>
            e.name == r.target && e.type == containerType).isSome ∧
          (entities.find? fun e =>
            e.name == r.source && e.type == itemType).isSome) then
        (mapSet acc1.1 r.target
          (addSet ((mapGet acc1.1 r.target).getD []) r.source),
         addSet acc1.2 r.source)
      else acc1)
    ([], [])

/-- generateCooccurrenceGraph (src/index.tsx): the nodes are the
collected items (containers are never emitted), and one weighted edge
is emitted per unordered item pair sharing a container, the weight
counting the containers, with the key canonicalised by the string
order of the pair (JS compares UTF-16 units, Lean code points:
identical for names inside the basic multilingual plane). -/
def generateCooccurrenceGraph (entities : List RawEntity)
    (relations : List RawRelation) (containerType itemType : String) :
    GraphData :=
  let cta := cooccurIndex entities relations containerType itemType
  let containerToItems := cta.1
  let nodes : List GraphNode := cta.2.map fun id => { id := id, group := itemType }
  let edgesMap : List ((String × String) × Nat) := containerToItems.foldl
    (fun em p =>
      (pairIdxList p.2.length).foldl
        (fun em2 ij =>
          let a := p.2.getD ij.1 ""
          let b := p.2.getD ij.2 ""
          let k := if a < b then (a, b) else (b, a)
          mapSet em2 k ((mapGet em2 k).getD 0 + 1))
        em)
    []
  let links : List GraphLink := edgesMap.map fun p =>
    { source := p.1.1, target := p.1.2, type := "co-occur",
      weight := some (p.2 : ℚ) }
  ⟨nodes, links⟩

/-- The canonical (string-ordered) pair key the edge loop of
generateCooccurrenceGraph builds from positions ij of the item array. -/
def canonKey (arr : List String) (ij : Nat × Nat) : String × String :=
  let a := arr.getD ij.1 ""
  let b := arr.getD ij.2 ""
  if a < b then (a, b) else (b, a)

/-- One edge-map increment of generateCooccurrenceGraph:
`edgesMap.set(key, (edgesMap.get(key) || 0) + 1)`. -/
def bumpEM (em : List ((String × String) × Nat)) (k : String × String) :
    List ((String × String) × Nat) :=
  mapSet em k ((mapGet em k).getD 0 + 1)

/-- The full edge accumulation of generateCooccurrenceGraph over the
container → items association list (definitionally the fold inlined in
generateCooccurrenceGraph itself). -/
def edgesFold (cs : List (String × List String))
    (em : List ((String × String) × Nat)) : List ((String × String) × Nat) :=
  cs.foldl
    (fun em p =>
      (pairIdxList p.2.length).foldl
        (fun em2 ij => bumpEM em2 (canonKey p.2 ij)) em)
    em

/-! ### Lemmas about the stable sort -/

theorem sInsert_perm {α : Type} (le : α → α → Bool) (x : α) (l : List α) :
    (sInsert le x l).Perm (x :: l) := by
  induction l with
  | nil => simp [sInsert]
  | cons y ys ih =>
    by_cases h : le y x = true
    · simp only [sInsert, if_pos h]
      exact (ih.cons y).trans (List.Perm.swap x y ys)
    · simp only [sInsert, if_neg h]
      exact List.Perm.refl _

theorem sSort_perm {α : Type} (le : α → α → Bool) (l : List α) :
    (sSort le l).Perm l := by
  have key : ∀ (l acc : List α),
      (l.foldl (fun acc x => sInsert le x acc) acc).Perm (l ++ acc) := by
    intro l
    induction l with
    | nil => intro acc; simp
    | cons x xs ih =>
      intro acc
      simp only [List.foldl_cons, List.cons_append]
      exact ((ih (sInsert le x acc)).trans
        (((sInsert_perm le x acc).append_left xs).trans
          List.perm_middle))
  simpa using key l []

theorem sInsert_pairwise {α : Type} (le : α → α → Bool)
    (htot : ∀ a b, le a b = true ∨ le b a = true)
    (htrans : ∀ a b c, le a b = true → le b c = true → le a c = true)
    (x : α) (l : List α) (h : l.Pairwise fun a b => le a b = true) :
    (sInsert le x l).Pairwise fun a b => le a b = true := by
  induction l with
  | nil => simp [sInsert]
  | cons y ys ih =>
    rw [List.pairwise_cons] at h
    by_cases hyx : le y x = true
    · simp only [sInsert, if_pos hyx]
      rw [List.pairwise_cons]
      refine ⟨?_, ih h.2⟩
      intro a ha
      rcases List.mem_cons.mp (((sInsert_perm le x ys).mem_iff).mp ha) with rfl | ha2
      · exact hyx
      · exact h.1 a ha2
    · simp only [sInsert, if_neg hyx]
      have hxy : le x y = true := (htot x y).resolve_right (by simpa using hyx)
      rw [List.pairwise_cons]
      refine ⟨?_, List.pairwise_cons.mpr h⟩
      intro a ha
      rcases List.mem_cons.mp ha with rfl | ha
      · exact hxy
      · exact htrans x y a hxy (h.1 a ha)

theorem sSort_pairwise {α : Type} (le : α → α → Bool)
    (htot : ∀ a b, le a b = true ∨ le b a = true)
    (htrans : ∀ a b c, le a b = true → le b c = true → le a c = true)
    (l : List α) : (sSort le l).Pairwise fun a b => le a b = true := by
  have key : ∀ (l acc : List α), (acc.Pairwise fun a b => le a b = true) →
      ((l.foldl (fun acc x => sInsert le x acc) acc).Pairwise
        fun a b => le a b = true) := by
    intro l
    induction l with
    | nil => intro acc h; simpa using h
    | cons x xs ih =>
      intro acc h
      exact ih _ (sInsert_pairwise le htot htrans x acc h)
  exact key l [] (by simp)

theorem sSort_length {α : Type} (le : α → α → Bool) (l : List α) :
    (sSort le l).length = l.length :=
  (sSort_perm le l).length_eq

/-! ### Lemmas about the adjacency builder -/

theorem adjStep_none (w : Bool) (adj : String → Option (List AdjEntry))
    (l : GraphLink) (x : String) (h : adj x = none) :
    adjStep w adj l x = none := by
  simp only [adjStep]
  split_ifs with h1 h2 h3 <;> simp_all

theorem getAdjacency_eq_none (nodes : List GraphNode) (links : List GraphLink)
    (w : Bool) (x : String) (hx : x ∉ nodes.map GraphNode.id) :
    getAdjacency nodes links w x = none := by
  have key : ∀ (ls : List GraphLink) (f : String → Option (List AdjEntry)),
      f x = none → (ls.foldl (adjStep w) f) x = none := by
    intro ls
    induction ls with
    | nil => intro f h; simpa using h
    | cons l ls ih =>
      intro f h
      exact ih _ (adjStep_none w f l x h)
  refine key links _ ?_
  have hc : (nodes.map GraphNode.id).contains x = false := by simpa using hx
  show (if (nodes.map GraphNode.id).contains x = true then some ([] : List AdjEntry)
    else none) = none
  rw [hc]
  simp

theorem adjStep_isSome (w : Bool) (adj : String → Option (List AdjEntry))
    (l : GraphLink) (x : String) (h : (adj x).isSome) :
    (adjStep w adj l x).isSome := by
  simp only [adjStep]
  split_ifs with h1 h2 h3 <;> simp_all

theorem getAdjacency_isSome (nodes : List GraphNode) (links : List GraphLink)
    (w : Bool) (x : String) (hx : x ∈ nodes.map GraphNode.id) :
    (getAdjacency nodes links w x).isSome := by
  have key : ∀ (ls : List GraphLink) (f : String → Option (List AdjEntry)),
      (f x).isSome → ((ls.foldl (adjStep w) f) x).isSome := by
    intro ls
    induction ls with
    | nil => intro f h; simpa using h
    | cons l ls ih =>
      intro f h
      exact ih _ (adjStep_isSome w f l x h)
  refine key links _ ?_
  have hc : (nodes.map GraphNode.id).contains x = true := by simpa using hx
  show (Option.isSome (if (nodes.map GraphNode.id).contains x = true
    then some ([] : List AdjEntry) else none)) = true
  rw [hc]
  simp

theorem getAdjacency_append (nodes : List GraphNode) (links : List GraphLink)
    (l : GraphLink) (w : Bool) :
    getAdjacency nodes (links ++ [l]) w =
      adjStep w (getAdjacency nodes links w) l := by
  simp [getAdjacency, List.foldl_append]

/-! ### Claim C2 -/

/-- C2 counterexample: a link from the known id "a" to the unknown id
"ghost" is NOT dropped — it changes the adjacency of "a", which gains
the entry naming the missing id. -/
theorem C2_counterexample :
    getAdjacency [{ id := "a" }] [{ source := "a", target := "ghost" }] false "a" ≠
      getAdjacency [{ id := "a" }] [] false "a" := by
  decide

/-- C2 amended: a link BOTH of whose endpoint ids are missing from the
node set contributes nothing; no neighbour list is ever created for a
missing id; but a link with exactly one endpoint present appends
exactly one entry — bearing the missing id — to the present
endpoint's list, leaving every other list unchanged. -/
theorem C2_amended (nodes : List GraphNode) (links : List GraphLink)
    (l : GraphLink) (w : Bool) :
    (l.source ∉ nodes.map GraphNode.id → l.target ∉ nodes.map GraphNode.id →
      getAdjacency nodes (links ++ [l]) w = getAdjacency nodes links w) ∧
    (∀ x, x ∉ nodes.map GraphNode.id → getAdjacency nodes links w x = none) ∧
    (l.source ∈ nodes.map GraphNode.id → l.target ∉ nodes.map GraphNode.id →
      getAdjacency nodes (links ++ [l]) w l.source =
        (getAdjacency nodes links w l.source).map
          (· ++ [⟨l.target, linkW w l⟩]) ∧
      ∀ x, x ≠ l.source → getAdjacency nodes (links ++ [l]) w x =
        getAdjacency nodes links w x) ∧
    (l.target ∈ nodes.map GraphNode.id → l.source ∉ nodes.map GraphNode.id →
      getAdjacency nodes (links ++ [l]) w l.target =
        (getAdjacency nodes links w l.target).map
          (· ++ [⟨l.source, linkW w l⟩]) ∧
      ∀ x, x ≠ l.target → getAdjacency nodes (links ++ [l]) w x =
        getAdjacency nodes links w x) := by
  refine ⟨?_, fun x hx => getAdjacency_eq_none nodes links w x hx, ?_, ?_⟩
  · intro hs ht
    have hs0 := getAdjacency_eq_none nodes links w l.source hs
    have ht0 := getAdjacency_eq_none nodes links w l.target ht
    rw [getAdjacency_append]
    funext x
    simp only [adjStep]
    split_ifs with h1 h2 h3 <;> simp_all
  · intro hs ht
    have hne : l.source ≠ l.target := fun h => ht (h ▸ hs)
    have ht0 := getAdjacency_eq_none nodes links w l.target ht
    rw [getAdjacency_append]
    constructor
    · simp [adjStep, hne]
    · intro x hx
      simp only [adjStep]
      split_ifs with h1 h2 <;> simp_all
  · intro ht hs
    have hne : l.source ≠ l.target := fun h => hs (h.symm ▸ ht)
    have hs0 := getAdjacency_eq_none nodes links w l.source hs
    rw [getAdjacency_append]
    constructor
    · simp [adjStep, hne.symm]
    · intro x hx
      simp only [adjStep]
      split_ifs with h1 h2 h3 <;> simp_all

/-- C2 witness: the amended statement applied to concrete inputs —
a fully dangling link leaves the adjacency unchanged, an unknown id
has no list, and a half-dangling link appends one entry to the present
endpoint's list. -/
theorem C2_witness :
    (getAdjacency [{ id := "a" }] ([] ++ [{ source := "u", target := "v" }])
        false =
      getAdjacency [{ id := "a" }] [] false) ∧
    getAdjacency [{ id := "a" }] [] false "zz" = none ∧
    getAdjacency [{ id := "a" }] ([] ++ [{ source := "a", target := "g" }])
        false "a" =
      (getAdjacency [{ id := "a" }] [] false "a").map
        (· ++ [⟨"g", linkW false { source := "a", target := "g" }⟩]) :=
  ⟨(C2_amended [{ id := "a" }] [] { source := "u", target := "v" } false).1
      (by decide) (by decide),
   (C2_amended [{ id := "a" }] [] { source := "u", target := "v" } false).2.1
      "zz" (by decide),
   ((C2_amended [{ id := "a" }] [] { source := "a", target := "g" } false).2.2.1
      (by decide) (by decide)).1⟩

/-! ### Claim C10 -/

/-- C10: a self-loop at v appends two entries to v's neighbour list
(so its degree value counts it twice), a further occurrence of a link
touching v appends one more entry to v's list, and the degree ranking
scores every node by exactly its neighbour-list length — link
multiplicity, not distinct neighbours. -/
theorem C10_self_loops_and_multiplicity (nodes : List GraphNode)
    (links : List GraphLink) (v : String) (hv : v ∈ nodes.map GraphNode.id)
    (l : GraphLink) :
    (l.source = v → l.target = v →
      getAdjacency nodes (links ++ [l]) false v =
        (getAdjacency nodes links false v).map (· ++ [⟨v, 1⟩, ⟨v, 1⟩]) ∧
      ((getAdjacency nodes (links ++ [l]) false v).map List.length).getD 0 =
        ((getAdjacency nodes links false v).map List.length).getD 0 + 2) ∧
    (l.source = v → l.target ≠ v →
      getAdjacency nodes (links ++ [l]) false v =
        (getAdjacency nodes links false v).map (· ++ [⟨l.target, 1⟩])) ∧
    (l.target = v → l.source ≠ v →
      getAdjacency nodes (links ++ [l]) false v =
        (getAdjacency nodes links false v).map (· ++ [⟨l.source, 1⟩])) ∧
    (∀ n ∈ nodes,
      (⟨n.id, (((getAdjacency nodes links false n.id).map List.length).getD 0 : ℚ)⟩ :
        RankEntry) ∈ degreeRanking nodes (getAdjacency nodes links false)) := by
  obtain ⟨lst, hlst⟩ :=
    Option.isSome_iff_exists.mp (getAdjacency_isSome nodes links false v hv)
  refine ⟨?_, ?_, ?_, ?_⟩
  · intro hs ht
    subst hs
    have heq : getAdjacency nodes (links ++ [l]) false l.source =
        (getAdjacency nodes links false l.source).map
          (· ++ [⟨l.source, 1⟩, ⟨l.source, 1⟩]) := by
      rw [getAdjacency_append]
      simp [adjStep, ht, hlst, linkW]
    refine ⟨heq, ?_⟩
    rw [heq, hlst]
    simp
  · intro hs ht
    subst hs
    rw [getAdjacency_append]
    simp [adjStep, Ne.symm ht, linkW]
  · intro ht hs
    subst ht
    rw [getAdjacency_append]
    simp [adjStep, Ne.symm hs, linkW]
  · intro n hn
    exact ((sSort_perm _ _).mem_iff).mpr
      (List.mem_map_of_mem
        (fun n => (⟨n.id, (((getAdjacency nodes links false n.id).map
          List.length).getD 0 : ℚ)⟩ : RankEntry)) hn)

/-! ### Claim C1 -/

/-- sortRankDesc permutes its input, sorts descending by val, and
keeps the length. -/
theorem sortRankDesc_spec (l : List RankEntry) :
    (sortRankDesc l).Perm l ∧
    (sortRankDesc l).Pairwise (fun a b => b.val ≤ a.val) ∧
    (sortRankDesc l).length = l.length := by
  refine ⟨sSort_perm _ l, ?_, sSort_length _ l⟩
  have h := sSort_pairwise (fun a b : RankEntry => decide (b.val ≤ a.val))
    (fun a b => by
      rcases le_total b.val a.val with h | h
      · exact Or.inl (by simpa using h)
      · exact Or.inr (by simpa using h))
    (fun a b c hab hbc => by
      simp only [decide_eq_true_eq] at hab hbc ⊢
      exact le_trans hbc hab)
    l
  exact h.imp fun hab => by simpa using hab

/-- C1 counterexample: on six isolated nodes the CENTRALITY operation
returns a degree list of five entries, not one per input node — the
lists are pre-truncated to the top five. -/
theorem C1_counterexample :
    (calculateCentralityRankings
      [{ id := "n1" }, { id := "n2" }, { id := "n3" },
       { id := "n4" }, { id := "n5" }, { id := "n6" }] []).degree.length = 5 ∧
    (5 : Nat) ≠ 6 := by
  constructor
  · decide
  · decide

/-- C1 amended: each of the three rankings is the top-five prefix
(slice(0, 5)) of a full list that holds one {id, val} entry per input
node — degree scored by neighbour-list length, betweenness by the
Brandes accumulation, closeness by the BFS ratio — sorted descending
by val; consequently each returned list is itself sorted descending
and has min 5 n entries. -/
theorem C1_amended (nodes : List GraphNode) (links : List GraphLink) :
    let r := calculateCentralityRankings nodes links
    let adj := getAdjacency nodes links false
    let D := nodes.map fun n =>
      (⟨n.id, (((adj n.id).map List.length).getD 0 : ℚ)⟩ : RankEntry)
    let B := nodes.map fun n =>
      (⟨n.id, calculateBetweenness nodes adj n.id⟩ : RankEntry)
    let C := nodes.map fun n =>
      (⟨n.id, calculateCloseness nodes adj n.id⟩ : RankEntry)
    (r.degree = (sortRankDesc D).take 5 ∧
     r.betweenness = (sortRankDesc B).take 5 ∧
     r.closeness = (sortRankDesc C).take 5) ∧
    ((sortRankDesc D).Perm D ∧ (sortRankDesc B).Perm B ∧
     (sortRankDesc C).Perm C) ∧
    ((sortRankDesc D).Pairwise (fun a b => b.val ≤ a.val) ∧
     (sortRankDesc B).Pairwise (fun a b => b.val ≤ a.val) ∧
     (sortRankDesc C).Pairwise (fun a b => b.val ≤ a.val)) ∧
    (r.degree.length = min 5 nodes.length ∧
     r.betweenness.length = min 5 nodes.length ∧
     r.closeness.length = min 5 nodes.length) ∧
    (r.degree.Pairwise (fun a b => b.val ≤ a.val) ∧
     r.betweenness.Pairwise (fun a b => b.val ≤ a.val) ∧
     r.closeness.Pairwise (fun a b => b.val ≤ a.val)) := by
  intro r adj D B C
  have hD := sortRankDesc_spec D
  have hB := sortRankDesc_spec B
  have hC := sortRankDesc_spec C
  have eD : r.degree = (sortRankDesc D).take 5 := rfl
  have eB : r.betweenness = (sortRankDesc B).take 5 := rfl
  have eC : r.closeness = (sortRankDesc C).take 5 := rfl
  refine ⟨⟨eD, eB, eC⟩, ⟨hD.1, hB.1, hC.1⟩, ⟨hD.2.1, hB.2.1, hC.2.1⟩, ?_, ?_⟩
  · refine ⟨?_, ?_, ?_⟩
    · rw [eD, List.length_take, hD.2.2]
      exact congrArg (min 5) (List.length_map _ _)
    · rw [eB, List.length_take, hB.2.2]
      exact congrArg (min 5) (List.length_map _ _)
    · rw [eC, List.length_take, hC.2.2]
      exact congrArg (min 5) (List.length_map _ _)
  · exact ⟨eD ▸ hD.2.1.sublist (List.take_sublist _ _),
      eB ▸ hB.2.1.sublist (List.take_sublist _ _),
      eC ▸ hC.2.1.sublist (List.take_sublist _ _)⟩

/-! ### Claim C3 -/

theorem modify_getD_self {α : Type} (f : α → α) (j : Nat) (l : List α) (d : α)
    (hj : j < l.length) : (List.modify f j l).getD j d = f (l.getD j d) := by
  rw [List.getD_eq_getElem?_getD, List.getElem?_modify,
    List.getD_eq_getElem?_getD, List.getElem?_eq_getElem hj]
  simp

theorem modify_getD_ne {α : Type} (f : α → α) (i j : Nat) (l : List α) (d : α)
    (h : i ≠ j) : (List.modify f i l).getD j d = l.getD j d := by
  rw [List.getD_eq_getElem?_getD, List.getElem?_modify,
    List.getD_eq_getElem?_getD]
  cases l[j]? <;> simp [h]

/-- The scatter loop of kmUpdate, read back per cluster index: the
accumulator row of index j ends up as the left fold of the vectors
assigned to j over the starting row, and the count of index j grows by
the number of such vectors; the row and count lists keep their
lengths. -/
theorem kmScatter (j : Nat) (pairs : List (List ℚ × Nat)) :
    ∀ (sums : List (List ℚ)) (counts : List Nat), j < sums.length →
      j < counts.length →
      (pairs.foldl
        (fun (acc : List (List ℚ) × List Nat) p =>
          (List.modify (fun row => vecAddInto row p.1) p.2 acc.1,
           List.modify (· + 1) p.2 acc.2)) (sums, counts)).1.getD j [] =
        ((pairs.filter fun p => p.2 == j).map Prod.fst).foldl
          (fun acc v => vecAddInto acc v) (sums.getD j []) ∧
      (pairs.foldl
        (fun (acc : List (List ℚ) × List Nat) p =>
          (List.modify (fun row => vecAddInto row p.1) p.2 acc.1,
           List.modify (· + 1) p.2 acc.2)) (sums, counts)).2.getD j 0 =
        counts.getD j 0 + (pairs.filter fun p => p.2 == j).length ∧
      (pairs.foldl
        (fun (acc : List (List ℚ) × List Nat) p =>
          (List.modify (fun row => vecAddInto row p.1) p.2 acc.1,
           List.modify (· + 1) p.2 acc.2)) (sums, counts)).1.length =
        sums.length := by
  induction pairs with
  | nil => intro sums counts h1 h2; simp
  | cons p ps ih =>
    intro sums counts h1 h2
    have h1m : j < (List.modify (fun row => vecAddInto row p.1) p.2 sums).length := by
      rw [List.length_modify]; exact h1
    have h2m : j < (List.modify (· + 1) p.2 counts).length := by
      rw [List.length_modify]; exact h2
    have step := ih (List.modify (fun row => vecAddInto row p.1) p.2 sums)
      (List.modify (· + 1) p.2 counts) h1m h2m
    by_cases hpj : p.2 = j
    · have hb : (p.2 == j) = true := by simpa using hpj
      simp only [List.foldl_cons, List.filter_cons, hb, eq_self_iff_true,
        if_true, List.map_cons, List.length_cons]
      refine ⟨?_, ?_, ?_⟩
      · rw [step.1, hpj, modify_getD_self _ _ _ _ h1]
      · rw [step.2.1, hpj, modify_getD_self _ _ _ _ h2]
        omega
      · rw [step.2.2, List.length_modify]
    · have hb : (p.2 == j) = false := by simpa using hpj
      simp only [List.foldl_cons, List.filter_cons, hb, Bool.false_eq_true,
        if_false]
      refine ⟨?_, ?_, ?_⟩
      · rw [step.1, modify_getD_ne _ _ _ _ _ hpj]
      · rw [step.2.1, modify_getD_ne _ _ _ _ _ hpj]
      · rw [step.2.2, List.length_modify]

/-- C3 counterexample: two identical nonzero vectors with k = 2 — the
assignment step sends both to centroid 0, and the update step resets
the memberless centroid 1 to the zero vector [0] instead of keeping
its previous value [1]. -/
theorem C3_counterexample :
    ([[(1 : ℚ)], [1]].map fun v => nearestIdx v [[(1 : ℚ)], [1]]) = [0, 0] ∧
    (kmUpdate 2 1 [[(1 : ℚ)], [1]] [0, 0]).getD 1 [] = [0] ∧
    ([[(1 : ℚ)], [1]] : List (List ℚ)).getD 1 [] ≠ [0] := by
  refine ⟨?_, ?_, ?_⟩
  · norm_num [nearestIdx, distSq]
  · norm_num [kmUpdate, vecAddInto]
  · norm_num

/-- The per-index reading of kmUpdate: a cluster with members gets
the fold of its members divided by their number, a memberless cluster
keeps the untouched all-zero accumulator row. -/
theorem kmUpdate_getD (k dim : Nat) (vectors : List (List ℚ))
    (assigns : List Nat) (j : Nat) (hj : j < k) :
    (((vectors.zip assigns).filter fun p => p.2 == j).map Prod.fst ≠ [] →
      (kmUpdate k dim vectors assigns).getD j [] =
        ((((vectors.zip assigns).filter fun p => p.2 == j).map Prod.fst).foldl
          (fun acc v => List.zipWith (· + ·) acc v)
          (List.replicate dim 0)).map
          (· / ((((vectors.zip assigns).filter fun p => p.2 == j).map
            Prod.fst).length : ℚ))) ∧
    ((((vectors.zip assigns).filter fun p => p.2 == j).map Prod.fst = [] →
      (kmUpdate k dim vectors assigns).getD j [] = List.replicate dim 0)) := by
  have hs : j < (List.replicate k (List.replicate dim (0 : ℚ))).length := by
    simpa using hj
  have hc : j < (List.replicate k (0 : Nat)).length := by simpa using hj
  have hscat := kmScatter j (vectors.zip assigns)
    (List.replicate k (List.replicate dim (0 : ℚ))) (List.replicate k (0 : Nat))
    hs hc
  set sc := (vectors.zip assigns).foldl
    (fun (acc : List (List ℚ) × List Nat) p =>
      (List.modify (fun row => vecAddInto row p.1) p.2 acc.1,
       List.modify (· + 1) p.2 acc.2))
    (List.replicate k (List.replicate dim (0 : ℚ)), List.replicate k (0 : Nat))
    with hsc
  have hlen : sc.1.length = k := by
    rw [hscat.2.2]; simp
  have hjlen : j < sc.1.length := by rw [hlen]; exact hj
  have hrow : sc.1.getD j [] =
      (((vectors.zip assigns).filter fun p => p.2 == j).map Prod.fst).foldl
        (fun acc v => vecAddInto acc v) (List.replicate dim 0) := by
    rw [hscat.1]
    rw [List.getD_eq_getElem?_getD, List.getElem?_replicate, if_pos hj]
    rfl
  have hcount : sc.2.getD j 0 =
      (((vectors.zip assigns).filter fun p => p.2 == j).map Prod.fst).length := by
    rw [hscat.2.1]
    rw [List.getD_eq_getElem?_getD, List.getElem?_replicate, if_pos hj]
    simp [List.length_map]
  have hval : (kmUpdate k dim vectors assigns).getD j [] =
      (if 0 < sc.2.getD j 0 then
        (sc.1.getD j []).map (· / (sc.2.getD j 0 : ℚ))
      else sc.1.getD j []) := by
    show (sc.1.enum.map fun p =>
        if 0 < sc.2.getD p.1 0 then p.2.map (· / (sc.2.getD p.1 0 : ℚ))
        else p.2).getD j [] = _
    have hjenum : j < sc.1.enum.length := by
      rw [List.enum_length]; exact hjlen
    rw [List.getD_eq_getElem?_getD, List.getElem?_map,
      List.getElem?_eq_getElem hjenum, List.getElem_enum]
    simp [List.getD_eq_getElem?_getD, List.getElem?_eq_getElem hjlen]
  constructor
  · intro hne
    have hpos : 0 < sc.2.getD j 0 := by
      rw [hcount]
      exact List.length_pos.mpr hne
    rw [hval, if_pos hpos, hrow, hcount]
    rfl
  · intro hemp
    have hz : sc.2.getD j 0 = 0 := by rw [hcount, hemp]; rfl
    rw [hval, hz, hrow, hemp]
    simp [vecAddInto]

/-- C3 amended: after an assignment step, every centroid with at least
one assigned vector is recomputed as the elementwise mean of its
assigned vectors, but a centroid with zero assigned members is reset
to the all-zero vector of the feature dimension (the untouched
accumulator row) — not left at the value it had before the update. -/
theorem C3_amended (k dim : Nat) (vectors : List (List ℚ))
    (assigns : List Nat) (j : Nat) (hj : j < k) :
    (((vectors.zip assigns).filter fun p => p.2 == j).map Prod.fst ≠ [] →
      (kmUpdate k dim vectors assigns).getD j [] =
        ((((vectors.zip assigns).filter fun p => p.2 == j).map Prod.fst).foldl
          (fun acc v => List.zipWith (· + ·) acc v)
          (List.replicate dim 0)).map
          (· / ((((vectors.zip assigns).filter fun p => p.2 == j).map
            Prod.fst).length : ℚ))) ∧
    ((((vectors.zip assigns).filter fun p => p.2 == j).map Prod.fst = [] →
      (kmUpdate k dim vectors assigns).getD j [] = List.replicate dim 0)) :=
  kmUpdate_getD k dim vectors assigns j hj

/-- C3 witness: the amended theorem applied to the concrete run of the
counterexample — centroid 0 becomes the mean of its two members and
the memberless centroid 1 becomes the zero vector. -/
theorem C3_witness :
    ((kmUpdate 2 1 [[(1 : ℚ)], [1]] [0, 0]).getD 0 [] =
      (((([[(1 : ℚ)], [1]].zip [0, 0]).filter fun p => p.2 == 0).map
        Prod.fst).foldl (fun acc v => List.zipWith (· + ·) acc v)
        (List.replicate 1 0)).map
        (· / ((((([[(1 : ℚ)], [1]].zip [0, 0]).filter fun p =>
          p.2 == 0).map Prod.fst).length : ℚ)))) ∧
    (kmUpdate 2 1 [[(1 : ℚ)], [1]] [0, 0]).getD 1 [] = List.replicate 1 0 :=
  ⟨(C3_amended 2 1 [[(1 : ℚ)], [1]] [0, 0] 0 (by decide)).1 (by decide),
   (C3_amended 2 1 [[(1 : ℚ)], [1]] [0, 0] 1 (by decide)).2 (by decide)⟩

/-! ### Claim C5 -/

set_option maxHeartbeats 1600000 in
/-- C5 counterexample: in the two-symptom scenario the single merge is
recorded at squared euclidean distance 2 — the source records √2 —
and not at distance 0: the two co-occurrence rows are [0, 1] and
[1, 0] (the diagonal is zeroed), not identical vectors. -/
theorem C5_counterexample :
    dendroDistance (calculateHierarchicalTree
      (generateCooccurrenceGraph
        [⟨"症状", "胸闷"⟩, ⟨"症状", "胸痛"⟩, ⟨"证候", "气虚血瘀证"⟩]
        [⟨"胸闷", "是症状", "气虚血瘀证"⟩, ⟨"胸痛", "是症状", "气虚血瘀证"⟩]
        "证候" "症状").nodes
      (generateCooccurrenceGraph
        [⟨"症状", "胸闷"⟩, ⟨"症状", "胸痛"⟩, ⟨"证候", "气虚血瘀证"⟩]
        [⟨"胸闷", "是症状", "气虚血瘀证"⟩, ⟨"胸痛", "是症状", "气虚血瘀证"⟩]
        "证候" "症状").links
      ⟨.euclidean, .complete⟩) = 2 ∧ (2 : ℚ) ≠ 0 := by
  have hG : generateCooccurrenceGraph
      [⟨"症状", "胸闷"⟩, ⟨"症状", "胸痛"⟩, ⟨"证候", "气虚血瘀证"⟩]
      [⟨"胸闷", "是症状", "气虚血瘀证"⟩, ⟨"胸痛", "是症状", "气虚血瘀证"⟩]
      "证候" "症状" =
      ⟨[{ id := "胸闷", group := "症状" }, { id := "胸痛", group := "症状" }],
       [{ source := "胸痛", target := "胸闷", type := "co-occur",
          weight := some 1 }]⟩ := by
    norm_num +decide [generateCooccurrenceGraph, cooccurIndex, mapSet, mapGet,
      addSet, pairIdxList]
  rw [hG]
  constructor
  · norm_num +decide [calculateHierarchicalTree, getAdjacency, adjStep, linkW,
      hcVector, hcLoop, findMinPair, getClusterDist,
      calculateDistance, maxOfList, mergeClusters, filterIdxNe,
      defaultCluster, dendroDistance, List.enum, List.enumFrom,
      show pairIdxList 2 = [(0, 1)] from by decide,
      show pairIdxList 1 = [] from by decide]
  · norm_num

set_option maxHeartbeats 1600000 in
/-- C5 amended: the scenario produces exactly one merge (n = 2) whose
root has the two symptom leaves as children, but its recorded merge
distance is √2 — squared value 2 in this embedding — rather than 0,
because the adjacency-row vectors [0, 1] and [1, 0] differ on the
zeroed diagonal positions. -/
theorem C5_amended :
    calculateHierarchicalTree
      (generateCooccurrenceGraph
        [⟨"症状", "胸闷"⟩, ⟨"症状", "胸痛"⟩, ⟨"证候", "气虚血瘀证"⟩]
        [⟨"胸闷", "是症状", "气虚血瘀证"⟩, ⟨"胸痛", "是症状", "气虚血瘀证"⟩]
        "证候" "症状").nodes
      (generateCooccurrenceGraph
        [⟨"症状", "胸闷"⟩, ⟨"症状", "胸痛"⟩, ⟨"证候", "气虚血瘀证"⟩]
        [⟨"胸闷", "是症状", "气虚血瘀证"⟩, ⟨"胸痛", "是症状", "气虚血瘀证"⟩]
        "证候" "症状").links
      ⟨.euclidean, .complete⟩ =
      .mk "" 2 false [.mk "胸闷" 0 true [], .mk "胸痛" 0 true []] := by
  have hG : generateCooccurrenceGraph
      [⟨"症状", "胸闷"⟩, ⟨"症状", "胸痛"⟩, ⟨"证候", "气虚血瘀证"⟩]
      [⟨"胸闷", "是症状", "气虚血瘀证"⟩, ⟨"胸痛", "是症状", "气虚血瘀证"⟩]
      "证候" "症状" =
      ⟨[{ id := "胸闷", group := "症状" }, { id := "胸痛", group := "症状" }],
       [{ source := "胸痛", target := "胸闷", type := "co-occur",
          weight := some 1 }]⟩ := by
    norm_num +decide [generateCooccurrenceGraph, cooccurIndex, mapSet, mapGet,
      addSet, pairIdxList]
  rw [hG]
  norm_num +decide [calculateHierarchicalTree, getAdjacency, adjStep, linkW,
    hcVector, hcLoop, findMinPair, getClusterDist,
    calculateDistance, maxOfList, mergeClusters, filterIdxNe,
    defaultCluster, List.enum, List.enumFrom,
    show pairIdxList 2 = [(0, 1)] from by decide,
    show pairIdxList 1 = [] from by decide]

/-! ### Claim C6 -/

theorem perm_getElem_cons_eraseIdx {α : Type} (L : List α) (j : Nat)
    (hj : j < L.length) : L.Perm (L[j] :: L.eraseIdx j) := by
  induction L generalizing j with
  | nil => simp at hj
  | cons x xs ih =>
    cases j with
    | zero => simp
    | succ j =>
      have hj2 : j < xs.length := by simpa using hj
      simp only [List.getElem_cons_succ, List.eraseIdx_cons_succ]
      exact ((ih j hj2).cons x).trans (List.Perm.swap (xs[j]) x _)

theorem filterIdxNe_high {α : Type} (i j : Nat) (L : List α) :
    ∀ t : Nat, i < t → j < t → filterIdxNe i j t L = L := by
  induction L with
  | nil => intro t _ _; rfl
  | cons x xs ih =>
    intro t hi hj
    simp only [filterIdxNe]
    rw [if_pos ⟨by omega, by omega⟩, ih (t + 1) (by omega) (by omega)]

theorem filterIdxNe_single {α : Type} (i j : Nat) (L : List α) :
    ∀ t : Nat, i < t → t ≤ j → filterIdxNe i j t L = L.eraseIdx (j - t) := by
  induction L with
  | nil => intro t _ _; rfl
  | cons x xs ih =>
    intro t hi hj
    by_cases htj : t = j
    · subst htj
      simp only [filterIdxNe]
      rw [if_neg (by omega), Nat.sub_self, List.eraseIdx_cons_zero]
      exact filterIdxNe_high i t xs (t + 1) (by omega) (by omega)
    · simp only [filterIdxNe]
      rw [if_pos ⟨by omega, by omega⟩, ih (t + 1) (by omega) (by omega),
        show j - t = (j - t - 1) + 1 from by omega, List.eraseIdx_cons_succ,
        show j - (t + 1) = j - t - 1 from by omega]

theorem filterIdxNe_main {α : Type} (i j : Nat) (hij : i < j) (L : List α) :
    ∀ t : Nat, t ≤ i →
      filterIdxNe i j t L = (L.eraseIdx (j - t)).eraseIdx (i - t) := by
  induction L with
  | nil => intro t _; rfl
  | cons x xs ih =>
    intro t hti
    by_cases hti2 : t = i
    · subst hti2
      simp only [filterIdxNe]
      rw [if_neg (by omega),
        filterIdxNe_single t j xs (t + 1) (by omega) (by omega),
        Nat.sub_self,
        show j - t = (j - t - 1) + 1 from by omega, List.eraseIdx_cons_succ,
        List.eraseIdx_cons_zero,
        show j - (t + 1) = j - t - 1 from by omega]
    · simp only [filterIdxNe]
      rw [if_pos ⟨by omega, by omega⟩, ih (t + 1) (by omega),
        show j - t = (j - t - 1) + 1 from by omega, List.eraseIdx_cons_succ,
        show i - t = (i - t - 1) + 1 from by omega, List.eraseIdx_cons_succ,
        show j - (t + 1) = j - t - 1 from by omega,
        show i - (t + 1) = i - t - 1 from by omega]

theorem filterIdxNe_zero {α : Type} (i j : Nat) (hij : i < j) (L : List α) :
    filterIdxNe i j 0 L = (L.eraseIdx j).eraseIdx i := by
  have := filterIdxNe_main i j hij L 0 (Nat.zero_le i)
  simpa using this

/-- Removing positions i < j < length leaves a list one shorter after
the later merge append: the two erasures shorten by one each. -/
theorem filterIdxNe_length {α : Type} (i j : Nat) (hij : i < j) (L : List α)
    (hj : j < L.length) : (filterIdxNe i j 0 L).length = L.length - 2 := by
  rw [filterIdxNe_zero i j hij L, List.length_eraseIdx, List.length_eraseIdx,
    if_pos hj, if_pos (by omega)]
  omega

theorem filterIdxNe_subset {α : Type} (i j : Nat) (hij : i < j) (L : List α) :
    ∀ c ∈ filterIdxNe i j 0 L, c ∈ L := by
  rw [filterIdxNe_zero i j hij L]
  intro c hc
  exact (List.eraseIdx_sublist L j).mem
    ((List.eraseIdx_sublist (L.eraseIdx j) i).mem hc)

/-- The clusters surviving a merge plus the two merged ones permute
the original cluster list. -/
theorem filterIdxNe_perm {α : Type} (i j : Nat) (hij : i < j) (L : List α)
    (hj : j < L.length) (hi : i < L.length) :
    L.Perm (L[i] :: L[j] :: filterIdxNe i j 0 L) := by
  rw [filterIdxNe_zero i j hij L]
  have h1 : L.Perm (L[j] :: L.eraseIdx j) := perm_getElem_cons_eraseIdx L j hj
  have hi2 : i < (L.eraseIdx j).length := by
    rw [List.length_eraseIdx, if_pos hj]; omega
  have h2 : (L.eraseIdx j).Perm ((L.eraseIdx j)[i] :: (L.eraseIdx j).eraseIdx i) :=
    perm_getElem_cons_eraseIdx (L.eraseIdx j) i hi2
  have hgi : (L.eraseIdx j)[i] = L[i] := by
    rw [List.getElem_eraseIdx]
    exact dif_pos hij
  rw [hgi] at h2
  exact (h1.trans (h2.cons L[j])).trans (List.Perm.swap L[i] L[j] _)

theorem pairIdxList_mem {n : Nat} {p : Nat × Nat} (h : p ∈ pairIdxList n) :
    p.1 < p.2 ∧ p.2 < n := by
  obtain ⟨i, hi, hp⟩ := List.mem_flatMap.mp h
  obtain ⟨j, hj, rfl⟩ := List.mem_map.mp hp
  obtain ⟨q, hq, hjq⟩ := List.mem_iff_getElem.mp hj
  rw [List.getElem_drop, List.getElem_range] at hjq
  rw [List.length_drop, List.length_range] at hq
  subst hjq
  exact ⟨by omega, by omega⟩

theorem pairIdxList_has_first {n : Nat} (h : 2 ≤ n) : (0, 1) ∈ pairIdxList n := by
  apply List.mem_flatMap.mpr
  refine ⟨0, List.mem_range.mpr (by omega), ?_⟩
  apply List.mem_map.mpr
  refine ⟨1, ?_, rfl⟩
  apply List.mem_iff_getElem.mpr
  refine ⟨0, ?_, ?_⟩
  · rw [List.length_drop, List.length_range]; omega
  · rw [List.getElem_drop, List.getElem_range]

theorem findMinPair_some (dist : Nat → Nat → ℚ) (n : Nat) (hn : 2 ≤ n) :
    ∃ d i j, findMinPair dist n = some (d, i, j) ∧ i < j ∧ j < n := by
  have hsome : ∀ (ps : List (Nat × Nat)) (acc : Option (ℚ × Nat × Nat)),
      acc.isSome ∨ ps ≠ [] →
      (ps.foldl
        (fun acc p =>
          let d := dist p.1 p.2
          match acc with
          | none => some (d, p.1, p.2)
          | some (minD, i, j) =>
            if d < minD then some (d, p.1, p.2) else some (minD, i, j))
        acc).isSome := by
    intro ps
    induction ps with
    | nil =>
      intro acc h
      rcases h with h | h
      · simpa using h
      · exact absurd rfl h
    | cons p ps ih =>
      intro acc _
      simp only [List.foldl_cons]
      apply ih
      left
      rcases acc with _ | ⟨⟨d0, i0, j0⟩⟩
      · simp
      · dsimp only
        split <;> simp
  have hbounds : ∀ (ps : List (Nat × Nat)) (acc : Option (ℚ × Nat × Nat)),
      (∀ p ∈ ps, p.1 < p.2 ∧ p.2 < n) →
      (∀ d i j, acc = some (d, i, j) → i < j ∧ j < n) →
      ∀ d i j, (ps.foldl
        (fun acc p =>
          let d := dist p.1 p.2
          match acc with
          | none => some (d, p.1, p.2)
          | some (minD, i, j) =>
            if d < minD then some (d, p.1, p.2) else some (minD, i, j))
        acc) = some (d, i, j) → i < j ∧ j < n := by
    intro ps
    induction ps with
    | nil =>
      intro acc _ hacc d i j h
      exact hacc d i j h
    | cons p ps ih =>
      intro acc hmem hacc d i j h
      simp only [List.foldl_cons] at h
      refine ih _ (fun q hq => hmem q (List.mem_cons_of_mem p hq)) ?_ d i j h
      have hp := hmem p (List.mem_cons_self p ps)
      intro d1 i1 j1 h1
      rcases acc with _ | ⟨⟨d0, i0, j0⟩⟩
      · dsimp only at h1
        simp only [Option.some.injEq, Prod.mk.injEq] at h1
        obtain ⟨-, h2, h3⟩ := h1
        subst h2
        subst h3
        exact hp
      · dsimp only at h1
        split at h1 <;>
          simp only [Option.some.injEq, Prod.mk.injEq] at h1
        · obtain ⟨-, h2, h3⟩ := h1
          subst h2
          subst h3
          exact hp
        · obtain ⟨-, h2, h3⟩ := h1
          subst h2
          subst h3
          exact hacc d0 i0 j0 rfl
  have hne : pairIdxList n ≠ [] :=
    List.ne_nil_of_mem (pairIdxList_has_first hn)
  have h1 := hsome (pairIdxList n) none (Or.inr hne)
  unfold findMinPair
  obtain ⟨⟨d, i, j⟩, hv⟩ := Option.isSome_iff_exists.mp h1
  refine ⟨d, i, j, hv, ?_⟩
  exact hbounds (pairIdxList n) none
    (fun p hp => pairIdxList_mem hp) (by simp) d i j hv

theorem flatMap_single_map {α β : Type} (f : α → β) (l : List α) :
    (l.flatMap fun x => [f x]) = l.map f := by
  induction l with
  | nil => rfl
  | cons x xs ih => simp [ih]

/-- The agglomeration loop preserves well-shaped cluster trees whose
leaves spell out the member list, keeps the multiset of members, and —
given enough fuel — always terminates with exactly one cluster. -/
theorem hcLoop_inv (vectors : String → List ℚ) (dt : DistanceType)
    (m : ClusterMethod) :
    ∀ (fuel : Nat) (L : List Cluster),
    (∀ c ∈ L, wfTree c.tree = true ∧ leafNames c.tree = c.members ∧
      countLeaves c.tree = c.members.length ∧
      countInternal c.tree + 1 = c.members.length ∧ c.members ≠ []) →
    (∀ c ∈ hcLoop vectors dt m fuel L, wfTree c.tree = true ∧
      leafNames c.tree = c.members ∧ countLeaves c.tree = c.members.length ∧
      countInternal c.tree + 1 = c.members.length ∧ c.members ≠ []) ∧
    ((hcLoop vectors dt m fuel L).flatMap Cluster.members).Perm
      (L.flatMap Cluster.members) ∧
    (1 ≤ L.length → L.length ≤ fuel + 1 →
      (hcLoop vectors dt m fuel L).length = 1) := by
  intro fuel
  induction fuel with
  | zero =>
    intro L hL
    refine ⟨by simpa [hcLoop] using hL, by simp [hcLoop], ?_⟩
    intro h1 h2
    simp only [hcLoop]
    omega
  | succ fuel ih =>
    intro L hL
    by_cases hlen : L.length ≤ 1
    · constructor
      · simpa [hcLoop, hlen] using hL
      · refine ⟨by simp [hcLoop, hlen], ?_⟩
        intro h1 _
        simp only [hcLoop, if_pos hlen]
        omega
    · have h2 : 2 ≤ L.length := by omega
      obtain ⟨d, i, j, hfind, hij, hjlen⟩ :=
        findMinPair_some
          (fun a b => getClusterDist vectors dt m (L.getD a defaultCluster)
            (L.getD b defaultCluster)) L.length h2
      have hilen : i < L.length := lt_trans hij hjlen
      have heq : hcLoop vectors dt m (fuel + 1) L =
          hcLoop vectors dt m fuel (mergeClusters vectors L i j d) := by
        simp only [hcLoop]
        rw [if_neg hlen, hfind]
      have hc1m : L.getD i defaultCluster ∈ L := by
        rw [List.getD_eq_getElem L defaultCluster hilen]
        exact List.getElem_mem hilen
      have hc2m : L.getD j defaultCluster ∈ L := by
        rw [List.getD_eq_getElem L defaultCluster hjlen]
        exact List.getElem_mem hjlen
      have hp1 := hL _ hc1m
      have hp2 := hL _ hc2m
      have hmerge : mergeClusters vectors L i j d =
          filterIdxNe i j 0 L ++
            [{ id := "merged",
               members := (L.getD i defaultCluster).members ++
                 (L.getD j defaultCluster).members,
               vec := _,
               tree := .mk "" d false [(L.getD i defaultCluster).tree,
                 (L.getD j defaultCluster).tree] }] := rfl
      have hinv2 : ∀ c ∈ mergeClusters vectors L i j d,
          wfTree c.tree = true ∧ leafNames c.tree = c.members ∧
          countLeaves c.tree = c.members.length ∧
          countInternal c.tree + 1 = c.members.length ∧ c.members ≠ [] := by
        intro c hc
        rw [hmerge] at hc
        rcases List.mem_append.mp hc with hc1 | hc2
        · exact hL c (filterIdxNe_subset i j hij L c hc1)
        · have hc3 := List.mem_singleton.mp hc2
          subst hc3
          refine ⟨?_, ?_, ?_, ?_, ?_⟩
          · show (wfTree (L.getD i defaultCluster).tree &&
              wfTree (L.getD j defaultCluster).tree) = true
            rw [hp1.1, hp2.1]
            rfl
          · show leafNames (L.getD i defaultCluster).tree ++
              leafNames (L.getD j defaultCluster).tree = _
            rw [hp1.2.1, hp2.2.1]
          · show countLeaves (L.getD i defaultCluster).tree +
              countLeaves (L.getD j defaultCluster).tree = _
            rw [hp1.2.2.1, hp2.2.2.1, List.length_append]
          · show 1 + countInternal (L.getD i defaultCluster).tree +
              countInternal (L.getD j defaultCluster).tree + 1 = _
            rw [List.length_append]
            have e1 := hp1.2.2.2.1
            have e2 := hp2.2.2.2.1
            omega
          · intro hbad
            exact hp1.2.2.2.2 (List.append_eq_nil.mp hbad).1
      have hperm2 : ((mergeClusters vectors L i j d).flatMap
          Cluster.members).Perm (L.flatMap Cluster.members) := by
        have hLperm : (L.flatMap Cluster.members).Perm
            ((L[i] :: L[j] :: filterIdxNe i j 0 L).flatMap Cluster.members) :=
          (filterIdxNe_perm i j hij L hjlen hilen).flatMap_right Cluster.members
        rw [hmerge]
        rw [List.flatMap_append, List.flatMap_singleton]
        refine List.Perm.trans ?_ hLperm.symm
        simp only [List.flatMap_cons]
        rw [List.getD_eq_getElem L defaultCluster hilen,
          List.getD_eq_getElem L defaultCluster hjlen]
        have habc := @List.perm_append_comm _
          ((filterIdxNe i j 0 L).flatMap Cluster.members)
          (L[i].members ++ L[j].members)
        refine habc.trans ?_
        rw [List.append_assoc]
      have hlen2 : (mergeClusters vectors L i j d).length = L.length - 1 := by
        rw [hmerge, List.length_append,
          filterIdxNe_length i j hij L hjlen]
        simp
        omega
      obtain ⟨ha, hb, hc⟩ := ih (mergeClusters vectors L i j d) hinv2
      rw [heq]
      refine ⟨ha, hb.trans hperm2, ?_⟩
      intro _ hlc
      refine hc ?_ ?_ <;> omega

/-- C6 counterexample: on the empty node set the clusterer returns the
fallback node {name "Root", children []}, a tree with one leaf and a
missing isLeaf flag — not the zero leaves the claim demands for n = 0. -/
theorem C6_counterexample :
    countLeaves (calculateHierarchicalTree [] [] ⟨.euclidean, .complete⟩) = 1 ∧
    (1 : Nat) ≠ 0 ∧
    wfTree (calculateHierarchicalTree [] [] ⟨.euclidean, .complete⟩) = false := by
  refine ⟨by decide, by decide, by decide⟩

/-- C6 amended: for every NONEMPTY input node set the dendrogram is a
well-shaped strictly binary merge tree — every internal node has
exactly two children and carries isLeaf = false, every leaf carries
isLeaf = true — with exactly n leaves, n - 1 internal nodes, and leaf
names a permutation of the input node ids (each id once per input
occurrence).  The empty input instead returns the childless fallback
"Root" node. -/
theorem C6_amended (nodes : List GraphNode) (links : List GraphLink)
    (config : HCConfig) (h : nodes ≠ []) :
    wfTree (calculateHierarchicalTree nodes links config) = true ∧
    countLeaves (calculateHierarchicalTree nodes links config) = nodes.length ∧
    countInternal (calculateHierarchicalTree nodes links config) + 1 =
      nodes.length ∧
    (leafNames (calculateHierarchicalTree nodes links config)).Perm
      (nodes.map GraphNode.id) := by
  have hinv0 : ∀ c ∈ nodes.enum.map (fun p =>
      ({ id := "c_" ++ toString p.1, members := [p.2.id],
         vec := hcVector (getAdjacency nodes links true)
           (nodes.map GraphNode.id) p.2.id,
         tree := .mk p.2.id 0 true [] } : Cluster)),
      wfTree c.tree = true ∧ leafNames c.tree = c.members ∧
      countLeaves c.tree = c.members.length ∧
      countInternal c.tree + 1 = c.members.length ∧ c.members ≠ [] := by
    intro c hc
    obtain ⟨p, hp, rfl⟩ := List.mem_map.mp hc
    exact ⟨rfl, rfl, rfl, rfl, by simp⟩
  obtain ⟨ha, hb, hc⟩ := hcLoop_inv
    (hcVector (getAdjacency nodes links true) (nodes.map GraphNode.id))
    config.distanceType config.method
    (nodes.enum.map (fun p =>
      ({ id := "c_" ++ toString p.1, members := [p.2.id],
         vec := hcVector (getAdjacency nodes links true)
           (nodes.map GraphNode.id) p.2.id,
         tree := .mk p.2.id 0 true [] } : Cluster))).length
    (nodes.enum.map (fun p =>
      ({ id := "c_" ++ toString p.1, members := [p.2.id],
         vec := hcVector (getAdjacency nodes links true)
           (nodes.map GraphNode.id) p.2.id,
         tree := .mk p.2.id 0 true [] } : Cluster)))
    hinv0
  have hclen : (nodes.enum.map (fun p =>
      ({ id := "c_" ++ toString p.1, members := [p.2.id],
         vec := hcVector (getAdjacency nodes links true)
           (nodes.map GraphNode.id) p.2.id,
         tree := .mk p.2.id 0 true [] } : Cluster))).length = nodes.length := by
    rw [List.length_map, List.enum_length]
  have hfl : ((nodes.enum.map (fun p =>
      ({ id := "c_" ++ toString p.1, members := [p.2.id],
         vec := hcVector (getAdjacency nodes links true)
           (nodes.map GraphNode.id) p.2.id,
         tree := .mk p.2.id 0 true [] } : Cluster))).flatMap
      Cluster.members) = nodes.map GraphNode.id := by
    rw [List.flatMap_map]
    have : (nodes.enum.flatMap fun p => [p.2.id]) =
        nodes.enum.map fun p => p.2.id := flatMap_single_map _ _
    rw [this]
    have : (nodes.enum.map fun p => p.2.id) =
        (nodes.enum.map Prod.snd).map GraphNode.id := by
      rw [List.map_map]
      rfl
    rw [this, List.enum_map_snd]
  have hone := hc (by
      rw [hclen]
      exact List.length_pos.mpr h) (by omega)
  obtain ⟨c, hcs⟩ := List.length_eq_one.mp hone
  have hT : calculateHierarchicalTree nodes links config = c.tree := by
    show (match hcLoop
        (hcVector (getAdjacency nodes links true) (nodes.map GraphNode.id))
        config.distanceType config.method
        (nodes.enum.map (fun p =>
          ({ id := "c_" ++ toString p.1, members := [p.2.id],
             vec := hcVector (getAdjacency nodes links true)
               (nodes.map GraphNode.id) p.2.id,
             tree := .mk p.2.id 0 true [] } : Cluster))).length
        (nodes.enum.map (fun p =>
          ({ id := "c_" ++ toString p.1, members := [p.2.id],
             vec := hcVector (getAdjacency nodes links true)
               (nodes.map GraphNode.id) p.2.id,
             tree := .mk p.2.id 0 true [] } : Cluster))) with
      | c :: _ => c.tree
      | [] => DendrogramNode.mk "Root" 0 false []) = c.tree
    rw [hcs]
  have hcmem : c ∈ (c :: ([] : List Cluster)) := List.mem_singleton.mpr rfl
  have hprops := ha c (by rw [hcs]; exact List.mem_singleton.mpr rfl)
  have hmembers : (c.members).Perm (nodes.map GraphNode.id) := by
    have := hb
    rw [hcs, hfl] at this
    simpa using this
  refine ⟨?_, ?_, ?_, ?_⟩
  · rw [hT]; exact hprops.1
  · rw [hT, hprops.2.2.1, hmembers.length_eq, List.length_map]
  · rw [hT]
    rw [hprops.2.2.2.1, hmembers.length_eq, List.length_map]
  · rw [hT, hprops.2.1]
    exact hmembers

/-- C6 witness: the amended statement applied to a one-node graph. -/
theorem C6_witness :
    wfTree (calculateHierarchicalTree [{ id := "x" }] []
      ⟨.euclidean, .complete⟩) = true ∧
    countLeaves (calculateHierarchicalTree [{ id := "x" }] []
      ⟨.euclidean, .complete⟩) = 1 ∧
    countInternal (calculateHierarchicalTree [{ id := "x" }] []
      ⟨.euclidean, .complete⟩) + 1 = 1 ∧
    (leafNames (calculateHierarchicalTree [{ id := "x" }] []
      ⟨.euclidean, .complete⟩)).Perm ["x"] :=
  C6_amended [{ id := "x" }] [] ⟨.euclidean, .complete⟩ (by decide)

/-! ### Claim C7 -/

/-- C7: every returned association rule clears both thresholds
simultaneously, its recorded fields satisfy support =
cooccur/totalTransactions, confidence = support/support(front) and
lift = confidence/support(back), and the rule list is sorted
non-increasing by lift. -/
theorem C7_rules_thresholds_and_sorted (entities : List RawEntity)
    (relations : List RawRelation) (frontType backType : String)
    (minSupport minConfidence : ℚ) :
    (∀ r ∈ (calculateAssociationRules entities relations frontType backType
        minSupport minConfidence).rules,
      minSupport ≤ r.support ∧ minConfidence ≤ r.confidence ∧
      r.support = (r.cooccur : ℚ) /
        ((assocTransactions entities relations frontType backType).length : ℚ) ∧
      r.confidence = r.support /
        (((mapGet (assocCounts entities frontType backType
            (assocTransactions entities relations frontType backType)).1
            r.source).getD 0 : ℚ) /
         ((assocTransactions entities relations frontType backType).length : ℚ)) ∧
      r.lift = r.confidence /
        (((mapGet (assocCounts entities frontType backType
            (assocTransactions entities relations frontType backType)).1
            r.target).getD 0 : ℚ) /
         ((assocTransactions entities relations frontType backType).length : ℚ))) ∧
    ((calculateAssociationRules entities relations frontType backType
        minSupport minConfidence).rules).Pairwise
      fun a b => b.lift ≤ a.lift := by
  by_cases h0 :
      (assocTransactions entities relations frontType backType).length = 0
  · have hA : (calculateAssociationRules entities relations frontType backType
        minSupport minConfidence).rules = [] := by
      simp only [calculateAssociationRules]
      rw [if_pos h0]
    rw [hA]
    simp
  · have hA : (calculateAssociationRules entities relations frontType backType
        minSupport minConfidence).rules =
        sSort (fun a b => decide (b.lift ≤ a.lift))
          (((assocCounts entities frontType backType
              (assocTransactions entities relations frontType backType)).2.foldl
            (fun (acc : List AssociationRuleResult × List String) p =>
              if ((p.2 : ℚ) /
                  ((assocTransactions entities relations frontType
                    backType).length : ℚ)) ≥ minSupport then
                if (((p.2 : ℚ) /
                    ((assocTransactions entities relations frontType
                      backType).length : ℚ)) /
                    (((mapGet (assocCounts entities frontType backType
                        (assocTransactions entities relations frontType
                          backType)).1 p.1.1).getD 0 : ℚ) /
                     ((assocTransactions entities relations frontType
                        backType).length : ℚ))) ≥ minConfidence then
                  (acc.1 ++
                    [⟨p.1.1, p.1.2,
                      (p.2 : ℚ) /
                        ((assocTransactions entities relations frontType
                          backType).length : ℚ),
                      ((p.2 : ℚ) /
                        ((assocTransactions entities relations frontType
                          backType).length : ℚ)) /
                        (((mapGet (assocCounts entities frontType backType
                            (assocTransactions entities relations frontType
                              backType)).1 p.1.1).getD 0 : ℚ) /
                         ((assocTransactions entities relations frontType
                            backType).length : ℚ)),
                      (((p.2 : ℚ) /
                        ((assocTransactions entities relations frontType
                          backType).length : ℚ)) /
                        (((mapGet (assocCounts entities frontType backType
                            (assocTransactions entities relations frontType
                              backType)).1 p.1.1).getD 0 : ℚ) /
                         ((assocTransactions entities relations frontType
                            backType).length : ℚ))) /
                        (((mapGet (assocCounts entities frontType backType
                            (assocTransactions entities relations frontType
                              backType)).1 p.1.2).getD 0 : ℚ) /
                         ((assocTransactions entities relations frontType
                            backType).length : ℚ)),
                      p.2⟩],
                   addSet (addSet acc.2 p.1.1) p.1.2)
                else acc
              else acc)
            ([], [])).1) := by
      simp only [calculateAssociationRules]
      rw [if_neg h0]
    rw [hA]
    have key : ∀ (pcs : List ((String × String) × Nat))
        (acc : List AssociationRuleResult × List String),
        (∀ r ∈ acc.1,
          minSupport ≤ r.support ∧ minConfidence ≤ r.confidence ∧
          r.support = (r.cooccur : ℚ) /
            ((assocTransactions entities relations frontType backType).length : ℚ) ∧
          r.confidence = r.support /
            (((mapGet (assocCounts entities frontType backType
                (assocTransactions entities relations frontType backType)).1
                r.source).getD 0 : ℚ) /
             ((assocTransactions entities relations frontType backType).length : ℚ)) ∧
          r.lift = r.confidence /
            (((mapGet (assocCounts entities frontType backType
                (assocTransactions entities relations frontType backType)).1
                r.target).getD 0 : ℚ) /
             ((assocTransactions entities relations frontType backType).length : ℚ))) →
        ∀ r ∈ (pcs.foldl
            (fun (acc : List AssociationRuleResult × List String) p =>
              if ((p.2 : ℚ) /
                  ((assocTransactions entities relations frontType
                    backType).length : ℚ)) ≥ minSupport then
                if (((p.2 : ℚ) /
                    ((assocTransactions entities relations frontType
                      backType).length : ℚ)) /
                    (((mapGet (assocCounts entities frontType backType
                        (assocTransactions entities relations frontType
                          backType)).1 p.1.1).getD 0 : ℚ) /
                     ((assocTransactions entities relations frontType
                        backType).length : ℚ))) ≥ minConfidence then
                  (acc.1 ++
                    [⟨p.1.1, p.1.2,
                      (p.2 : ℚ) /
                        ((assocTransactions entities relations frontType
                          backType).length : ℚ),
                      ((p.2 : ℚ) /
                        ((assocTransactions entities relations frontType
                          backType).length : ℚ)) /
                        (((mapGet (assocCounts entities frontType backType
                            (assocTransactions entities relations frontType
                              backType)).1 p.1.1).getD 0 : ℚ) /
                         ((assocTransactions entities relations frontType
                            backType).length : ℚ)),
                      (((p.2 : ℚ) /
                        ((assocTransactions entities relations frontType
                          backType).length : ℚ)) /
                        (((mapGet (assocCounts entities frontType backType
                            (assocTransactions entities relations frontType
                              backType)).1 p.1.1).getD 0 : ℚ) /
                         ((assocTransactions entities relations frontType
                            backType).length : ℚ))) /
                        (((mapGet (assocCounts entities frontType backType
                            (assocTransactions entities relations frontType
                              backType)).1 p.1.2).getD 0 : ℚ) /
                         ((assocTransactions entities relations frontType
                            backType).length : ℚ)),
                      p.2⟩],
                   addSet (addSet acc.2 p.1.1) p.1.2)
                else acc
              else acc)
            acc).1,
          minSupport ≤ r.support ∧ minConfidence ≤ r.confidence ∧
          r.support = (r.cooccur : ℚ) /
            ((assocTransactions entities relations frontType backType).length : ℚ) ∧
          r.confidence = r.support /
            (((mapGet (assocCounts entities frontType backType
                (assocTransactions entities relations frontType backType)).1
                r.source).getD 0 : ℚ) /
             ((assocTransactions entities relations frontType backType).length : ℚ)) ∧
          r.lift = r.confidence /
            (((mapGet (assocCounts entities frontType backType
                (assocTransactions entities relations frontType backType)).1
                r.target).getD 0 : ℚ) /
             ((assocTransactions entities relations frontType backType).length : ℚ)) := by
      intro pcs
      induction pcs with
      | nil => intro acc h; exact h
      | cons p pcs ih =>
        intro acc hacc
        simp only [List.foldl_cons]
        apply ih
        intro r hr
        by_cases h1 : ((p.2 : ℚ) /
            ((assocTransactions entities relations frontType
              backType).length : ℚ)) ≥ minSupport
        · rw [if_pos h1] at hr
          by_cases h2 : (((p.2 : ℚ) /
              ((assocTransactions entities relations frontType
                backType).length : ℚ)) /
              (((mapGet (assocCounts entities frontType backType
                  (assocTransactions entities relations frontType
                    backType)).1 p.1.1).getD 0 : ℚ) /
               ((assocTransactions entities relations frontType
                  backType).length : ℚ))) ≥ minConfidence
          · rw [if_pos h2] at hr
            rcases List.mem_append.mp hr with hr1 | hr2
            · exact hacc r hr1
            · have hreq := List.mem_singleton.mp hr2
              subst hreq
              exact ⟨h1, h2, rfl, rfl, rfl⟩
          · rw [if_neg h2] at hr
            exact hacc r hr
        · rw [if_neg h1] at hr
          exact hacc r hr
    constructor
    · intro r hr
      exact key _ ([], []) (by simp) r
        (((sSort_perm _ _).mem_iff).mp hr)
    · have hs := sSort_pairwise
        (fun a b : AssociationRuleResult => decide (b.lift ≤ a.lift))
        (fun a b => by
          rcases le_total b.lift a.lift with h | h
          · exact Or.inl (by simpa using h)
          · exact Or.inr (by simpa using h))
        (fun a b c hab hbc => by
          simp only [decide_eq_true_eq] at hab hbc ⊢
          exact le_trans hbc hab)
        (((assocCounts entities frontType backType
            (assocTransactions entities relations frontType backType)).2.foldl
          (fun (acc : List AssociationRuleResult × List String) p =>
            if ((p.2 : ℚ) /
                ((assocTransactions entities relations frontType
                  backType).length : ℚ)) ≥ minSupport then
              if (((p.2 : ℚ) /
                  ((assocTransactions entities relations frontType
                    backType).length : ℚ)) /
                  (((mapGet (assocCounts entities frontType backType
                      (assocTransactions entities relations frontType
                        backType)).1 p.1.1).getD 0 : ℚ) /
                   ((assocTransactions entities relations frontType
                      backType).length : ℚ))) ≥ minConfidence then
                (acc.1 ++
                  [⟨p.1.1, p.1.2,
                    (p.2 : ℚ) /
                      ((assocTransactions entities relations frontType
                        backType).length : ℚ),
                    ((p.2 : ℚ) /
                      ((assocTransactions entities relations frontType
                        backType).length : ℚ)) /
                      (((mapGet (assocCounts entities frontType backType
                          (assocTransactions entities relations frontType
                            backType)).1 p.1.1).getD 0 : ℚ) /
                       ((assocTransactions entities relations frontType
                          backType).length : ℚ)),
                    (((p.2 : ℚ) /
                      ((assocTransactions entities relations frontType
                        backType).length : ℚ)) /
                      (((mapGet (assocCounts entities frontType backType
                          (assocTransactions entities relations frontType
                            backType)).1 p.1.1).getD 0 : ℚ) /
                       ((assocTransactions entities relations frontType
                          backType).length : ℚ))) /
                      (((mapGet (assocCounts entities frontType backType
                          (assocTransactions entities relations frontType
                            backType)).1 p.1.2).getD 0 : ℚ) /
                       ((assocTransactions entities relations frontType
                          backType).length : ℚ)),
                    p.2⟩],
                 addSet (addSet acc.2 p.1.1) p.1.2)
              else acc
            else acc)
          ([], [])).1)
      exact hs.imp fun hab => by simpa using hab

/-! ### Claim C8 -/

theorem mapGet_mem {κ α : Type} [DecidableEq κ] (m : List (κ × α)) (k : κ)
    (v : α) (h : mapGet m k = some v) : (k, v) ∈ m := by
  induction m with
  | nil => simp [mapGet] at h
  | cons q rest ih =>
    rw [mapGet] at h
    by_cases hk : q.1 = k
    · rw [if_pos hk] at h
      have hv := Option.some.inj h
      refine List.mem_cons.mpr (Or.inl ?_)
      cases q
      simp_all
    · rw [if_neg hk] at h
      exact List.mem_cons_of_mem q (ih h)

theorem mem_mapSet {κ α : Type} [DecidableEq κ] (m : List (κ × α)) (k : κ)
    (v : α) (q : κ × α) (h : q ∈ mapSet m k v) : q = (k, v) ∨ q ∈ m := by
  induction m with
  | nil => simpa [mapSet] using h
  | cons q0 rest ih =>
    rw [mapSet] at h
    by_cases hk : q0.1 = k
    · rw [if_pos hk] at h
      rcases List.mem_cons.mp h with h | h
      · exact Or.inl h
      · exact Or.inr (List.mem_cons_of_mem q0 h)
    · rw [if_neg hk] at h
      rcases List.mem_cons.mp h with h | h
      · exact Or.inr (h ▸ List.mem_cons_self q0 rest)
      · rcases ih h with h | h
        · exact Or.inl h
        · exact Or.inr (List.mem_cons_of_mem q0 h)

theorem mapSet_keys {κ α : Type} [DecidableEq κ] (m : List (κ × α)) (k : κ)
    (v : α) :
    (mapSet m k v).map Prod.fst =
      if k ∈ m.map Prod.fst then m.map Prod.fst else m.map Prod.fst ++ [k] := by
  induction m with
  | nil => simp [mapSet]
  | cons q0 rest ih =>
    rw [mapSet]
    by_cases hk : q0.1 = k
    · rw [if_pos hk]
      have : k ∈ (q0 :: rest).map Prod.fst := by
        simp only [List.map_cons]
        exact hk ▸ List.mem_cons_self _ _
      rw [if_pos this]
      simp [hk]
    · rw [if_neg hk]
      simp only [List.map_cons, ih]
      by_cases hmem : k ∈ rest.map Prod.fst
      · rw [if_pos hmem, if_pos (List.mem_cons_of_mem _ hmem)]
      · rw [if_neg hmem, if_neg ?_]
        · simp
        · intro hc
          rcases List.mem_cons.mp hc with hc | hc
          · exact hk hc.symm
          · exact hmem hc

theorem mapGet_mapSet_self {κ α : Type} [DecidableEq κ] (m : List (κ × α))
    (k : κ) (v : α) : mapGet (mapSet m k v) k = some v := by
  induction m with
  | nil => simp [mapSet, mapGet]
  | cons q0 rest ih =>
    rw [mapSet]
    by_cases hk : q0.1 = k
    · rw [if_pos hk, mapGet, if_pos rfl]
    · rw [if_neg hk, mapGet, if_neg hk]
      exact ih

theorem mapGet_mapSet_ne {κ α : Type} [DecidableEq κ] (m : List (κ × α))
    (k k2 : κ) (v : α) (h : k2 ≠ k) :
    mapGet (mapSet m k v) k2 = mapGet m k2 := by
  induction m with
  | nil =>
    simp only [mapSet, mapGet]
    rw [if_neg (fun hh : k = k2 => h hh.symm)]
  | cons q0 rest ih =>
    rw [mapSet]
    by_cases hk : q0.1 = k
    · rw [if_pos hk, mapGet, if_neg (fun hh : k = k2 => h hh.symm), mapGet,
        if_neg (fun hh : q0.1 = k2 => h (hh ▸ hk))]
    · rw [if_neg hk, mapGet, mapGet]
      by_cases hq : q0.1 = k2
      · rw [if_pos hq, if_pos hq]
      · rw [if_neg hq, if_neg hq]
        exact ih

theorem addSet_mem {α : Type} [DecidableEq α] (s : List α) (x y : α) :
    y ∈ addSet s x ↔ y ∈ s ∨ y = x := by
  unfold addSet
  by_cases h : s.contains x
  · rw [if_pos h]
    constructor
    · exact Or.inl
    · rintro (h1 | rfl)
      · exact h1
      · simpa using h
  · rw [if_neg h]
    simp

theorem addSet_nodup {α : Type} [DecidableEq α] (s : List α) (x : α)
    (h : s.Nodup) : (addSet s x).Nodup := by
  unfold addSet
  by_cases hc : s.contains x
  · rwa [if_pos hc]
  · rw [if_neg hc]
    have hx : x ∉ s := by simpa using hc
    simp [List.nodup_append, h, hx]

theorem bumpFold {κ : Type} [DecidableEq κ] (ks : List κ) :
    ∀ (m : List (κ × Nat)) (key : κ),
    (mapGet (ks.foldl
      (fun em k => mapSet em k ((mapGet em k).getD 0 + 1)) m) key).getD 0 =
    (mapGet m key).getD 0 + ks.count key := by
  induction ks with
  | nil => intro m key; simp
  | cons k ks ih =>
    intro m key
    simp only [List.foldl_cons]
    rw [ih]
    by_cases hk : k = key
    · subst hk
      rw [mapGet_mapSet_self, List.count_cons]
      simp only [Option.getD_some, beq_self_eq_true, if_pos]
      omega
    · rw [mapGet_mapSet_ne _ _ _ _ (fun hh => hk hh.symm), List.count_cons]
      have : (k == key) = false := by simpa using hk
      rw [this]
      simp

theorem pairIdxList_mem_intro {n i j : Nat} (hij : i < j) (hj : j < n) :
    (i, j) ∈ pairIdxList n := by
  apply List.mem_flatMap.mpr
  refine ⟨i, List.mem_range.mpr (by omega), ?_⟩
  apply List.mem_map.mpr
  refine ⟨j, ?_, rfl⟩
  apply List.mem_iff_getElem.mpr
  refine ⟨j - i - 1, ?_, ?_⟩
  · rw [List.length_drop, List.length_range]
    omega
  · rw [List.getElem_drop, List.getElem_range]
    omega

theorem pairIdxList_nodup (n : Nat) : (pairIdxList n).Nodup := by
  unfold pairIdxList
  rw [List.nodup_flatMap]
  constructor
  · intro i _
    exact List.Nodup.map (fun a b hab => congrArg Prod.snd hab)
      ((List.drop_sublist _ _).nodup (List.nodup_range n))
  · have hlt : (List.range n).Pairwise (· < ·) := List.pairwise_lt_range n
    refine hlt.imp ?_
    intro a b hab
    intro x hx1 hx2
    obtain ⟨j1, _, rfl⟩ := List.mem_map.mp hx1
    obtain ⟨j2, _, he⟩ := List.mem_map.mp hx2
    have : b = a := congrArg Prod.fst he
    omega

theorem countP_eq_one_of_unique {α : Type} (l : List α) (p : α → Bool) (a : α)
    (hnd : l.Nodup) (ha : a ∈ l) (hp : ∀ x ∈ l, p x = true ↔ x = a) :
    l.countP p = 1 := by
  induction l with
  | nil => simp at ha
  | cons x xs ih =>
    rw [List.countP_cons]
    by_cases hax : x = a
    · subst hax
      have hx : p x = true := (hp x (List.mem_cons_self x xs)).mpr rfl
      have h0 : xs.countP p = 0 := by
        apply List.countP_eq_zero.mpr
        intro y hy hpy
        have hya : y = x := (hp y (List.mem_cons_of_mem x hy)).mp hpy
        subst hya
        exact (List.nodup_cons.mp hnd).1 hy
      rw [hx, h0]
      simp
    · have hmem : a ∈ xs := by
        rcases List.mem_cons.mp ha with h | h
        · exact absurd h.symm hax
        · exact h
      have hx : p x = false := by
        cases hpx : p x
        · rfl
        · exact absurd ((hp x (List.mem_cons_self x xs)).mp hpx) hax
      rw [hx, ih (List.nodup_cons.mp hnd).2 hmem
        (fun y hy => hp y (List.mem_cons_of_mem x hy))]
      simp

/-- In one container with duplicate-free items, each unordered pair of
present items is keyed exactly once by the nested index loops: the
canonical key (u, v) with u < v appears once when both endpoints are
present and never otherwise. -/
theorem canonPairs_count (arr : List String) (hnd : arr.Nodup) (u v : String)
    (huv : u < v) :
    (((pairIdxList arr.length).map fun ij =>
        if arr.getD ij.1 "" < arr.getD ij.2 "" then
          (arr.getD ij.1 "", arr.getD ij.2 "")
        else (arr.getD ij.2 "", arr.getD ij.1 "")).count (u, v)) =
      if u ∈ arr ∧ v ∈ arr then 1 else 0 := by
  rw [List.count_eq_countP, List.countP_map]
  by_cases hmem : u ∈ arr ∧ v ∈ arr
  · rw [if_pos hmem]
    obtain ⟨iu, hiu, hgu⟩ := List.mem_iff_getElem.mp hmem.1
    obtain ⟨iv, hiv, hgv⟩ := List.mem_iff_getElem.mp hmem.2
    have huvne : u ≠ v := ne_of_lt huv
    have hiune : iu ≠ iv := by
      intro hh
      subst hh
      exact huvne (hgu.symm.trans hgv)
    have hchar : ∀ ij ∈ pairIdxList arr.length,
        ((if arr.getD ij.1 "" < arr.getD ij.2 "" then
            (arr.getD ij.1 "", arr.getD ij.2 "")
          else (arr.getD ij.2 "", arr.getD ij.1 "")) = (u, v)) ↔
          ij = (if iu < iv then (iu, iv) else (iv, iu)) := by
      intro ij hij
      obtain ⟨hij1, hij2⟩ := pairIdxList_mem hij
      have hi1 : ij.1 < arr.length := lt_trans hij1 hij2
      rw [List.getD_eq_getElem arr "" hi1, List.getD_eq_getElem arr "" hij2]
      constructor
      · intro hcanon
        by_cases hab : arr[ij.1] < arr[ij.2]
        · rw [if_pos hab] at hcanon
          have h1 : arr[ij.1] = u := congrArg Prod.fst hcanon
          have h2 : arr[ij.2] = v := congrArg Prod.snd hcanon
          have e1 : ij.1 = iu := by
            rw [← hgu] at h1
            exact (hnd.getElem_inj_iff).mp h1
          have e2 : ij.2 = iv := by
            rw [← hgv] at h2
            exact (hnd.getElem_inj_iff).mp h2
          rw [if_pos (by omega)]
          rw [← e1, ← e2]
        · rw [if_neg hab] at hcanon
          have h1 : arr[ij.2] = u := congrArg Prod.fst hcanon
          have h2 : arr[ij.1] = v := congrArg Prod.snd hcanon
          have e1 : ij.2 = iu := by
            rw [← hgu] at h1
            exact (hnd.getElem_inj_iff).mp h1
          have e2 : ij.1 = iv := by
            rw [← hgv] at h2
            exact (hnd.getElem_inj_iff).mp h2
          rw [if_neg (by omega)]
          rw [← e1, ← e2]
      · intro hp0
        by_cases hio : iu < iv
        · rw [if_pos hio] at hp0
          have e1 : ij.1 = iu := congrArg Prod.fst hp0
          have e2 : ij.2 = iv := congrArg Prod.snd hp0
          have hh1 : arr[ij.1] = u := by
            rw [← hgu]
            exact (hnd.getElem_inj_iff).mpr e1
          have hh2 : arr[ij.2] = v := by
            rw [← hgv]
            exact (hnd.getElem_inj_iff).mpr e2
          rw [hh1, hh2, if_pos huv]
        · rw [if_neg hio] at hp0
          have e1 : ij.1 = iv := congrArg Prod.fst hp0
          have e2 : ij.2 = iu := congrArg Prod.snd hp0
          have hh1 : arr[ij.1] = v := by
            rw [← hgv]
            exact (hnd.getElem_inj_iff).mpr e1
          have hh2 : arr[ij.2] = u := by
            rw [← hgu]
            exact (hnd.getElem_inj_iff).mpr e2
          rw [hh1, hh2, if_neg (fun hlt => absurd (lt_trans hlt huv)
            (lt_irrefl v))]
    have hp0mem : (if iu < iv then (iu, iv) else (iv, iu)) ∈
        pairIdxList arr.length := by
      by_cases hio : iu < iv
      · rw [if_pos hio]
        exact pairIdxList_mem_intro hio hiv
      · rw [if_neg hio]
        exact pairIdxList_mem_intro (by omega) hiu
    apply countP_eq_one_of_unique _ _ (if iu < iv then (iu, iv) else (iv, iu))
      (pairIdxList_nodup _) hp0mem
    intro ij hij
    simp only [Function.comp_apply, beq_iff_eq]
    exact hchar ij hij
  · rw [if_neg hmem]
    apply List.countP_eq_zero.mpr
    intro ij hij
    obtain ⟨hij1, hij2⟩ := pairIdxList_mem hij
    have hi1 : ij.1 < arr.length := lt_trans hij1 hij2
    simp only [Function.comp_apply, beq_iff_eq]
    intro hcanon
    apply hmem
    by_cases hab : arr.getD ij.1 "" < arr.getD ij.2 ""
    · rw [if_pos hab] at hcanon
      have h1 : arr.getD ij.1 "" = u := congrArg Prod.fst hcanon
      have h2 : arr.getD ij.2 "" = v := congrArg Prod.snd hcanon
      rw [List.getD_eq_getElem arr "" hi1] at h1
      rw [List.getD_eq_getElem arr "" hij2] at h2
      exact ⟨h1 ▸ List.getElem_mem hi1, h2 ▸ List.getElem_mem hij2⟩
    · rw [if_neg hab] at hcanon
      have h1 : arr.getD ij.2 "" = u := congrArg Prod.fst hcanon
      have h2 : arr.getD ij.1 "" = v := congrArg Prod.snd hcanon
      rw [List.getD_eq_getElem arr "" hij2] at h1
      rw [List.getD_eq_getElem arr "" hi1] at h2
      exact ⟨h1 ▸ List.getElem_mem hij2, h2 ▸ List.getElem_mem hi1⟩

theorem mapGet_of_mem_nodup {κ α : Type} [DecidableEq κ] (m : List (κ × α))
    (k : κ) (v : α) (hnd : (m.map Prod.fst).Nodup) (hm : (k, v) ∈ m) :
    mapGet m k = some v := by
  induction m with
  | nil => simp at hm
  | cons q rest ih =>
    rw [mapGet]
    rcases List.mem_cons.mp hm with hq | hq
    · rw [← hq]
      simp
    · have hk : q.1 ≠ k := by
        intro hh
        have : k ∈ rest.map Prod.fst := by
          apply List.mem_map.mpr
          exact ⟨(k, v), hq, rfl⟩
        rw [← hh] at this
        exact (List.nodup_cons.mp (by simpa using hnd)).1 this
      rw [if_neg hk]
      exact ih (List.nodup_cons.mp (by simpa using hnd)).2 hq

theorem mapSet_keys_nodup {κ α : Type} [DecidableEq κ] (m : List (κ × α))
    (k : κ) (v : α) (h : (m.map Prod.fst).Nodup) :
    ((mapSet m k v).map Prod.fst).Nodup := by
  rw [mapSet_keys]
  by_cases hk : k ∈ m.map Prod.fst
  · rwa [if_pos hk]
  · rw [if_neg hk]
    simp [List.nodup_append, h, hk]

/-- Each container key appears once in the collected association list,
the item lists collected per container are duplicate-free, and every
collected item name belongs to an item-typed entity. -/
theorem cooccurIndex_inv (entities : List RawEntity)
    (relations : List RawRelation) (containerType itemType : String) :
    (((cooccurIndex entities relations containerType itemType).1.map
      Prod.fst).Nodup) ∧
    (∀ c ∈ (cooccurIndex entities relations containerType itemType).1,
      c.2.Nodup) ∧
    (∀ x ∈ (cooccurIndex entities relations containerType itemType).2,
      ∃ e ∈ entities, e.name = x ∧ e.type = itemType) := by
  have hupd : ∀ (a : List (String × List String) × List String)
      (key val : String), (∃ e ∈ entities, e.name = val ∧ e.type = itemType) →
      ((a.1.map Prod.fst).Nodup ∧ (∀ c ∈ a.1, c.2.Nodup) ∧
        (∀ x ∈ a.2, ∃ e ∈ entities, e.name = x ∧ e.type = itemType)) →
      (((mapSet a.1 key (addSet ((mapGet a.1 key).getD []) val),
          addSet a.2 val).1.map Prod.fst).Nodup ∧
        (∀ c ∈ (mapSet a.1 key (addSet ((mapGet a.1 key).getD []) val),
          addSet a.2 val).1, c.2.Nodup) ∧
        (∀ x ∈ (mapSet a.1 key (addSet ((mapGet a.1 key).getD []) val),
          addSet a.2 val).2,
          ∃ e ∈ entities, e.name = x ∧ e.type = itemType)) := by
    intro a key val hval ha
    refine ⟨mapSet_keys_nodup a.1 key _ ha.1, ?_, ?_⟩
    · intro c hc
      rcases mem_mapSet _ _ _ c hc with hc | hc
      · subst hc
        apply addSet_nodup
        cases hg : mapGet a.1 key with
        | none => simp
        | some old =>
          have := ha.2.1 (key, old) (mapGet_mem _ _ _ hg)
          simpa using this
      · exact ha.2.1 c hc
    · intro x hx
      rcases (addSet_mem _ _ _).mp hx with hx | hx
      · exact ha.2.2 x hx
      · exact hx ▸ hval
  have hfind : ∀ nm : String,
      (entities.find? fun e => e.name == nm && e.type == itemType).isSome →
      ∃ e ∈ entities, e.name = nm ∧ e.type = itemType := by
    intro nm h
    obtain ⟨e, he⟩ := Option.isSome_iff_exists.mp h
    have hmem := List.mem_of_find?_eq_some he
    have hpe := List.find?_some he
    refine ⟨e, hmem, ?_⟩
    simpa using hpe
  have key : ∀ (rs : List RawRelation)
      (a : List (String × List String) × List String),
      ((a.1.map Prod.fst).Nodup ∧ (∀ c ∈ a.1, c.2.Nodup) ∧
        (∀ x ∈ a.2, ∃ e ∈ entities, e.name = x ∧ e.type = itemType)) →
      ((((rs.foldl (fun acc r =>
          let acc1 :=
            if ((entities.find? fun e =>
                  e.name == r.source && e.type == containerType).isSome ∧
                (entities.find? fun e =>
                  e.name == r.target && e.type == itemType).isSome) then
              (mapSet acc.1 r.source
                (addSet ((mapGet acc.1 r.source).getD []) r.target),
               addSet acc.2 r.target)
            else acc
          if ((entities.find? fun e =>
                e.name == r.target && e.type == containerType).isSome ∧
              (entities.find? fun e =>
                e.name == r.source && e.type == itemType).isSome) then
            (mapSet acc1.1 r.target
              (addSet ((mapGet acc1.1 r.target).getD []) r.source),
             addSet acc1.2 r.source)
          else acc1) a).1.map Prod.fst).Nodup) ∧
       (∀ c ∈ (rs.foldl (fun acc r =>
          let acc1 :=
            if ((entities.find? fun e =>
                  e.name == r.source && e.type == containerType).isSome ∧
                (entities.find? fun e =>
                  e.name == r.target && e.type == itemType).isSome) then
              (mapSet acc.1 r.source
                (addSet ((mapGet acc.1 r.source).getD []) r.target),
               addSet acc.2 r.target)
            else acc
          if ((entities.find? fun e =>
                e.name == r.target && e.type == containerType).isSome ∧
              (entities.find? fun e =>
                e.name == r.source && e.type == itemType).isSome) then
            (mapSet acc1.1 r.target
              (addSet ((mapGet acc1.1 r.target).getD []) r.source),
             addSet acc1.2 r.source)
          else acc1) a).1, c.2.Nodup) ∧
        (∀ x ∈ (rs.foldl (fun acc r =>
          let acc1 :=
            if ((entities.find? fun e =>
                  e.name == r.source && e.type == containerType).isSome ∧
                (entities.find? fun e =>
                  e.name == r.target && e.type == itemType).isSome) then
              (mapSet acc.1 r.source
                (addSet ((mapGet acc.1 r.source).getD []) r.target),
               addSet acc.2 r.target)
            else acc
          if ((entities.find? fun e =>
                e.name == r.target && e.type == containerType).isSome ∧
              (entities.find? fun e =>
                e.name == r.source && e.type == itemType).isSome) then
            (mapSet acc1.1 r.target
              (addSet ((mapGet acc1.1 r.target).getD []) r.source),
             addSet acc1.2 r.source)
          else acc1) a).2,
          ∃ e ∈ entities, e.name = x ∧ e.type = itemType)) := by
    intro rs
    induction rs with
    | nil => intro a ha; exact ha
    | cons r rs ih =>
      intro a ha
      simp only [List.foldl_cons]
      apply ih
      by_cases h1 : ((entities.find? fun e =>
            e.name == r.source && e.type == containerType).isSome ∧
          (entities.find? fun e =>
            e.name == r.target && e.type == itemType).isSome)
      · rw [if_pos h1]
        by_cases h2 : ((entities.find? fun e =>
              e.name == r.target && e.type == containerType).isSome ∧
            (entities.find? fun e =>
              e.name == r.source && e.type == itemType).isSome)
        · rw [if_pos h2]
          exact hupd _ r.target r.source (hfind r.source h2.2)
            (hupd a r.source r.target (hfind r.target h1.2) ha)
        · rw [if_neg h2]
          exact hupd a r.source r.target (hfind r.target h1.2) ha
      · rw [if_neg h1]
        by_cases h2 : ((entities.find? fun e =>
              e.name == r.target && e.type == containerType).isSome ∧
            (entities.find? fun e =>
              e.name == r.source && e.type == itemType).isSome)
        · rw [if_pos h2]
          exact hupd a r.target r.source (hfind r.source h2.2) ha
        · rw [if_neg h2]
          exact ha
  exact key relations ([], []) ⟨by simp, by simp, by simp⟩

/-- The links of generateCooccurrenceGraph are (definitionally) the
edge-map fold rendered as weighted links. -/
theorem generateCooccurrence_links (entities : List RawEntity)
    (relations : List RawRelation) (containerType itemType : String) :
    (generateCooccurrenceGraph entities relations containerType
        itemType).links =
      (edgesFold (cooccurIndex entities relations containerType itemType).1
        []).map
        (fun p =>
          { source := p.1.1, target := p.1.2, type := "co-occur",
            weight := some (p.2 : ℚ) }) := rfl

/-- The nodes of generateCooccurrenceGraph are (definitionally) the
collected item names rendered as nodes of the item group. -/
theorem generateCooccurrence_nodes (entities : List RawEntity)
    (relations : List RawRelation) (containerType itemType : String) :
    (generateCooccurrenceGraph entities relations containerType
        itemType).nodes =
      (cooccurIndex entities relations containerType itemType).2.map
        (fun id => { id := id, group := itemType }) := rfl

theorem canonBumpFold (arr : List String)
    (em : List ((String × String) × Nat)) :
    (pairIdxList arr.length).foldl
        (fun em2 ij => bumpEM em2 (canonKey arr ij)) em =
      ((pairIdxList arr.length).map (canonKey arr)).foldl bumpEM em :=
  (List.foldl_map _ _ _ _).symm

theorem bumpEM_fold : ∀ (ks : List (String × String))
    (m : List ((String × String) × Nat)) (key : String × String),
    (mapGet (ks.foldl bumpEM m) key).getD 0 =
      (mapGet m key).getD 0 + ks.count key := by
  intro ks
  induction ks with
  | nil => intro m key; simp
  | cons k ks ih =>
    intro m key
    simp only [List.foldl_cons, bumpEM]
    rw [ih]
    by_cases hk : k = key
    · subst hk
      rw [mapGet_mapSet_self, List.count_cons]
      simp only [Option.getD_some, beq_self_eq_true, if_pos]
      omega
    · rw [mapGet_mapSet_ne _ _ _ _ (fun hh => hk hh.symm), List.count_cons]
      have hbeq : (k == key) = false := by simpa using hk
      rw [hbeq]
      simp

theorem canonKey_count (arr : List String) (hnd : arr.Nodup) (u v : String)
    (huv : u < v) :
    ((pairIdxList arr.length).map (canonKey arr)).count (u, v) =
      if u ∈ arr ∧ v ∈ arr then 1 else 0 :=
  canonPairs_count arr hnd u v huv

/-- The canonical key of an in-range index pair of a duplicate-free
item array is strictly ordered. -/
theorem canonKey_lt (arr : List String) (hnd : arr.Nodup) (ij : Nat × Nat)
    (hij : ij ∈ pairIdxList arr.length) :
    (canonKey arr ij).1 < (canonKey arr ij).2 := by
  obtain ⟨h1, h2⟩ := pairIdxList_mem hij
  have hi : ij.1 < arr.length := lt_trans h1 h2
  have ha : arr.getD ij.1 "" = arr[ij.1] := by
    rw [List.getD_eq_getElem?_getD, List.getElem?_eq_getElem hi]
    rfl
  have hb : arr.getD ij.2 "" = arr[ij.2] := by
    rw [List.getD_eq_getElem?_getD, List.getElem?_eq_getElem h2]
    rfl
  have hne : arr.getD ij.1 "" ≠ arr.getD ij.2 "" := by
    rw [ha, hb]
    intro he
    have := (List.Nodup.getElem_inj_iff hnd).mp he
    omega
  simp only [canonKey]
  by_cases hab : arr.getD ij.1 "" < arr.getD ij.2 ""
  · rw [if_pos hab]
    exact hab
  · have hba : arr.getD ij.2 "" < arr.getD ij.1 "" :=
      lt_of_le_of_ne (le_of_not_lt hab) (fun hh => hne hh.symm)
    rw [if_neg hab]
    exact hba

/-- One bump of the edge map at a strictly ordered key preserves the
edge-map invariant: keys pairwise distinct, every key strictly
ordered, every weight at least 1. -/
theorem bumpEM_inv (em : List ((String × String) × Nat))
    (k : String × String) (hk : k.1 < k.2)
    (h : ((em.map Prod.fst).Nodup ∧ ∀ q ∈ em, q.1.1 < q.1.2 ∧ 1 ≤ q.2)) :
    (((bumpEM em k).map Prod.fst).Nodup ∧
      ∀ q ∈ bumpEM em k, q.1.1 < q.1.2 ∧ 1 ≤ q.2) := by
  constructor
  · exact mapSet_keys_nodup em k _ h.1
  · intro q hq
    rcases mem_mapSet _ _ _ q hq with hq | hq
    · subst hq
      exact ⟨hk, by omega⟩
    · exact h.2 q hq

/-- The accumulated weight of a strictly ordered key over the whole
edge fold counts the containers whose item list holds both names. -/
theorem edgesFold_weight (u v : String) (huv : u < v) :
    ∀ (cs : List (String × List String)), (∀ c ∈ cs, c.2.Nodup) →
    ∀ em, (mapGet (edgesFold cs em) (u, v)).getD 0 =
      (mapGet em (u, v)).getD 0 +
      (cs.filter fun c => u ∈ c.2 ∧ v ∈ c.2).length := by
  intro cs
  induction cs with
  | nil => intro _ em; simp [edgesFold]
  | cons c cs ih =>
    intro hcs em
    have hstep : edgesFold (c :: cs) em = edgesFold cs
        ((pairIdxList c.2.length).foldl
          (fun em2 ij => bumpEM em2 (canonKey c.2 ij)) em) := rfl
    rw [hstep, ih (fun x hx => hcs x (List.mem_cons_of_mem c hx)) _,
      canonBumpFold, bumpEM_fold,
      canonKey_count c.2 (hcs c (List.mem_cons_self c cs)) u v huv,
      List.filter_cons]
    by_cases h : u ∈ c.2 ∧ v ∈ c.2
    · rw [if_pos h, if_pos (by simpa using h)]
      simp only [List.length_cons]
      omega
    · rw [if_neg h, if_neg (by simpa using h)]
      omega

/-- The edge-map invariant holds of the whole edge fold. -/
theorem edgesFold_inv : ∀ (cs : List (String × List String)),
    (∀ c ∈ cs, c.2.Nodup) → ∀ em,
    ((em.map Prod.fst).Nodup ∧ ∀ q ∈ em, q.1.1 < q.1.2 ∧ 1 ≤ q.2) →
    (((edgesFold cs em).map Prod.fst).Nodup ∧
      ∀ q ∈ edgesFold cs em, q.1.1 < q.1.2 ∧ 1 ≤ q.2) := by
  have hinner : ∀ (arr : List String), arr.Nodup →
      ∀ (ijs : List (Nat × Nat)), (∀ ij ∈ ijs, ij ∈ pairIdxList arr.length) →
      ∀ em, ((em.map Prod.fst).Nodup ∧ ∀ q ∈ em, q.1.1 < q.1.2 ∧ 1 ≤ q.2) →
      (((ijs.foldl (fun em2 ij => bumpEM em2 (canonKey arr ij)) em).map
          Prod.fst).Nodup ∧
        ∀ q ∈ ijs.foldl (fun em2 ij => bumpEM em2 (canonKey arr ij)) em,
          q.1.1 < q.1.2 ∧ 1 ≤ q.2) := by
    intro arr hnd ijs
    induction ijs with
    | nil => intro _ em h; exact h
    | cons ij ijs ih =>
      intro hijs em h
      simp only [List.foldl_cons]
      exact ih (fun x hx => hijs x (List.mem_cons_of_mem ij hx)) _
        (bumpEM_inv em _
          (canonKey_lt arr hnd ij (hijs ij (List.mem_cons_self ij ijs))) h)
  intro cs
  induction cs with
  | nil => intro _ em h; exact h
  | cons c cs ih =>
    intro hcs em h
    have hstep : edgesFold (c :: cs) em = edgesFold cs
        ((pairIdxList c.2.length).foldl
          (fun em2 ij => bumpEM em2 (canonKey c.2 ij)) em) := rfl
    rw [hstep]
    exact ih (fun x hx => hcs x (List.mem_cons_of_mem c hx)) _
      (hinner c.2 (hcs c (List.mem_cons_self c cs)) _ (fun ij hij => hij)
        em h)

set_option maxHeartbeats 1600000 in
/-- C8: the co-occurrence builder emits exactly one weighted edge per
unordered item pair co-occurring under a container — each link's
endpoints are strictly ordered, its type is "co-occur", its weight is
the number of (distinct) containers whose item list holds both
endpoints and is at least 1, the endpoint pairs of the links are
pairwise distinct, and every co-occurring ordered pair yields a link;
every emitted node is an item-typed entity name (containers are never
emitted); and the concrete scenario X ⊇ {a, b}, Y ⊇ {b, c} yields
exactly the links (a, b) and (b, c) of weight 1 on nodes a, b, c. -/
theorem C8_cooccurrence (entities : List RawEntity)
    (relations : List RawRelation) (containerType itemType : String) :
    (∀ l ∈ (generateCooccurrenceGraph entities relations containerType
        itemType).links,
      l.source < l.target ∧ l.type = "co-occur" ∧
      l.weight = some
        ((((cooccurIndex entities relations containerType itemType).1.filter
          fun c => l.source ∈ c.2 ∧ l.target ∈ c.2).length : ℚ)) ∧
      1 ≤ ((cooccurIndex entities relations containerType itemType).1.filter
          fun c => l.source ∈ c.2 ∧ l.target ∈ c.2).length) ∧
    ((generateCooccurrenceGraph entities relations containerType
        itemType).links.map fun l => (l.source, l.target)).Nodup ∧
    (∀ c ∈ (cooccurIndex entities relations containerType itemType).1,
      ∀ u ∈ c.2, ∀ v ∈ c.2, u < v →
      ∃ l ∈ (generateCooccurrenceGraph entities relations containerType
          itemType).links, l.source = u ∧ l.target = v ∧
        l.weight = some
          ((((cooccurIndex entities relations containerType
            itemType).1.filter
            fun c2 => u ∈ c2.2 ∧ v ∈ c2.2).length : ℚ))) ∧
    (∀ nd ∈ (generateCooccurrenceGraph entities relations containerType
      itemType).nodes, ∃ e ∈ entities, e.name = nd.id ∧ e.type = itemType) ∧
    (generateCooccurrenceGraph
        [⟨"C", "X"⟩, ⟨"C", "Y"⟩, ⟨"I", "a"⟩, ⟨"I", "b"⟩, ⟨"I", "c"⟩]
        [⟨"X", "h", "a"⟩, ⟨"X", "h", "b"⟩, ⟨"Y", "h", "b"⟩, ⟨"Y", "h", "c"⟩]
        "C" "I").links =
      [{ source := "a", target := "b", type := "co-occur",
         weight := some 1 },
       { source := "b", target := "c", type := "co-occur",
         weight := some 1 }] ∧
    ((generateCooccurrenceGraph
        [⟨"C", "X"⟩, ⟨"C", "Y"⟩, ⟨"I", "a"⟩, ⟨"I", "b"⟩, ⟨"I", "c"⟩]
        [⟨"X", "h", "a"⟩, ⟨"X", "h", "b"⟩, ⟨"Y", "h", "b"⟩, ⟨"Y", "h", "c"⟩]
        "C" "I").nodes.map GraphNode.id = ["a", "b", "c"]) := by
  have hinv := cooccurIndex_inv entities relations containerType itemType
  have hcs := hinv.2.1
  have hlinks := generateCooccurrence_links entities relations containerType
    itemType
  have hQ := edgesFold_inv
    (cooccurIndex entities relations containerType itemType).1 hcs []
    ⟨by simp, by simp⟩
  have hW : ∀ u v : String, u < v →
      (mapGet (edgesFold
        (cooccurIndex entities relations containerType itemType).1 [])
        (u, v)).getD 0 =
      ((cooccurIndex entities relations containerType itemType).1.filter
        fun c => u ∈ c.2 ∧ v ∈ c.2).length := by
    intro u v huv
    have h0 := edgesFold_weight u v huv
      (cooccurIndex entities relations containerType itemType).1 hcs []
    simpa [mapGet] using h0
  refine ⟨?_, ?_, ?_, ?_, ?_, ?_⟩
  · intro l hl
    rw [hlinks] at hl
    obtain ⟨p, hp, rfl⟩ := List.mem_map.mp hl
    have hQp := hQ.2 p hp
    dsimp only
    have hget : mapGet (edgesFold
        (cooccurIndex entities relations containerType itemType).1 []) p.1 =
        some p.2 :=
      mapGet_of_mem_nodup _ _ _ hQ.1 (by rw [Prod.mk.eta]; exact hp)
    have hp2 : p.2 = ((cooccurIndex entities relations containerType
        itemType).1.filter fun c => p.1.1 ∈ c.2 ∧ p.1.2 ∈ c.2).length := by
      have h1 := hW p.1.1 p.1.2 hQp.1
      rw [Prod.mk.eta, hget] at h1
      simpa using h1
    refine ⟨hQp.1, rfl, ?_, ?_⟩
    · rw [hp2]
    · rw [← hp2]
      exact hQp.2
  · rw [hlinks, List.map_map]
    exact hQ.1
  · intro c hc u hu v hv huv
    have h1 := hW u v huv
    have hpos : 1 ≤ ((cooccurIndex entities relations containerType
        itemType).1.filter fun c2 => u ∈ c2.2 ∧ v ∈ c2.2).length := by
      have hcf : c ∈ (cooccurIndex entities relations containerType
          itemType).1.filter fun c2 => u ∈ c2.2 ∧ v ∈ c2.2 :=
        List.mem_filter.mpr ⟨hc, by simp [hu, hv]⟩
      exact List.length_pos.mpr (List.ne_nil_of_mem hcf)
    cases hgg : mapGet (edgesFold
        (cooccurIndex entities relations containerType itemType).1 [])
        (u, v) with
    | none =>
      rw [hgg] at h1
      simp only [Option.getD_none] at h1
      omega
    | some w =>
      rw [hgg] at h1
      simp only [Option.getD_some] at h1
      subst h1
      have hmem := mapGet_mem _ _ _ hgg
      refine ⟨{ source := u, target := v, type := "co-occur",
                weight := some ((((cooccurIndex entities relations
                  containerType itemType).1.filter
                  fun c2 => u ∈ c2.2 ∧ v ∈ c2.2).length : ℚ)) },
        ?_, rfl, rfl, rfl⟩
      rw [hlinks]
      exact List.mem_map_of_mem _ hmem
  · intro nd hnd
    rw [generateCooccurrence_nodes] at hnd
    obtain ⟨x, hx, rfl⟩ := List.mem_map.mp hnd
    exact hinv.2.2 x hx
  · norm_num +decide [generateCooccurrenceGraph, cooccurIndex, mapSet,
      mapGet, addSet, pairIdxList]
  · norm_num +decide [generateCooccurrenceGraph, cooccurIndex, mapSet,
      mapGet, addSet, pairIdxList]

theorem nearestIdx_eq (v : List ℚ) (cs : List (List ℚ)) :
    nearestIdx v cs = (cs.foldl (nearStep v) (none, 0, 0)).2.1 := rfl

theorem distSq_foldl_nonneg (a : List ℚ) :
    ∀ (b : List ℚ) (acc : ℚ), 0 ≤ acc →
    0 ≤ (List.zipWith (fun x y => (x - y) ^ 2) a b).foldl (· + ·) acc := by
  induction a with
  | nil => intro b acc h; simpa using h
  | cons x xs ih =>
    intro b acc h
    cases b with
    | nil => simpa using h
    | cons y ys =>
      simp only [List.zipWith_cons_cons, List.foldl_cons]
      exact ih ys _ (by positivity)

theorem distSq_nonneg (a b : List ℚ) : 0 ≤ distSq a b :=
  distSq_foldl_nonneg a b 0 le_rfl

theorem distSq_self (v : List ℚ) : distSq v v = 0 := by
  have key : ∀ (w : List ℚ) (acc : ℚ),
      (List.zipWith (fun x y => (x - y) ^ 2) w w).foldl (· + ·) acc = acc := by
    intro w
    induction w with
    | nil => intro acc; rfl
    | cons x xs ih =>
      intro acc
      simp only [List.zipWith_cons_cons, List.foldl_cons]
      rw [show x - x = 0 from by ring]
      rw [show acc + (0 : ℚ) ^ 2 = acc from by ring]
      exact ih acc
  exact key v 0

theorem zipWith_replicate_zero_add (v : List ℚ) :
    List.zipWith (· + ·) (List.replicate v.length (0 : ℚ)) v = v := by
  induction v with
  | nil => rfl
  | cons x xs ih => simp [List.replicate_succ, ih]

theorem length_filter_eq_countP {α : Type} (l : List α) (p : α → Bool) :
    (l.filter p).length = l.countP p := by
  induction l with
  | nil => rfl
  | cons x xs ih =>
    rw [List.filter_cons, List.countP_cons]
    by_cases h : p x
    · simp [h, ih]
    · simp [h, ih]

theorem count_range_self (n j : Nat) (h : j < n) :
    (List.range n).count j = 1 := by
  show (List.range n).countP (· == j) = 1
  apply countP_eq_one_of_unique (List.range n) (· == j) j (List.nodup_range n)
    (List.mem_range.mpr h)
  intro x hx
  simp

/-- A length-n list over [0, n) that attains every value of [0, n) is
a permutation of range n. -/
theorem asgPerm (asg : List Nat) (n : Nat) (hlen : asg.length = n)
    (hsurj : ∀ j, j < n → j ∈ asg) : asg.Perm (List.range n) := by
  have hsub : (List.range n).Subperm asg :=
    (List.nodup_range n).subperm (fun j hj => hsurj j (List.mem_range.mp hj))
  have hle : asg.length ≤ (List.range n).length := by
    rw [List.length_range, hlen]
  exact (hsub.perm_of_length_le hle).symm

theorem kmUpdate_length (k dim : Nat) (vectors : List (List ℚ))
    (assigns : List Nat) : (kmUpdate k dim vectors assigns).length = k := by
  have key : ∀ (l : List (List ℚ × Nat)) (sums : List (List ℚ))
      (counts : List Nat),
      (l.foldl (fun (acc : List (List ℚ) × List Nat) p =>
        (List.modify (fun row => vecAddInto row p.1) p.2 acc.1,
         List.modify (· + 1) p.2 acc.2)) (sums, counts)).1.length =
        sums.length := by
    intro l
    induction l with
    | nil => intro sums counts; rfl
    | cons p l ih =>
      intro sums counts
      simp only [List.foldl_cons]
      rw [ih]
      exact List.length_modify _ _ _
  show ((((vectors.zip assigns).foldl (fun acc p =>
    (List.modify (fun row => vecAddInto row p.1) p.2 acc.1,
     List.modify (· + 1) p.2 acc.2))
    (List.replicate k (List.replicate dim (0 : ℚ)),
     List.replicate k (0 : Nat))).1.enum.map _).length) = k
  rw [List.length_map, List.enum_length, key]
  simp

/-- The scan invariant of nearestIdx: after folding any suffix, the
counter equals the number of processed centroids and the held index is
the first index attaining the minimal distance. -/
theorem nearFold_spec (v : List ℚ) :
    ∀ (l processed : List (List ℚ)) (s : Option ℚ × Nat × Nat),
    s.2.2 = processed.length →
    ((s.1 = none ∧ processed = [] ∧ s.2.1 = 0) ∨
      (∃ dmin, s.1 = some dmin ∧ s.2.1 < processed.length ∧
        dmin = distSq v (processed.getD s.2.1 []) ∧
        (∀ j, j < processed.length → dmin ≤ distSq v (processed.getD j [])) ∧
        (∀ j, j < s.2.1 → dmin < distSq v (processed.getD j [])))) →
    ((l.foldl (nearStep v) s).2.2 = (processed ++ l).length ∧
      (((l.foldl (nearStep v) s).1 = none ∧ processed ++ l = [] ∧
          (l.foldl (nearStep v) s).2.1 = 0) ∨
        (∃ dmin, (l.foldl (nearStep v) s).1 = some dmin ∧
          (l.foldl (nearStep v) s).2.1 < (processed ++ l).length ∧
          dmin = distSq v ((processed ++ l).getD
            (l.foldl (nearStep v) s).2.1 []) ∧
          (∀ j, j < (processed ++ l).length →
            dmin ≤ distSq v ((processed ++ l).getD j [])) ∧
          (∀ j, j < (l.foldl (nearStep v) s).2.1 →
            dmin < distSq v ((processed ++ l).getD j []))))) := by
  intro l
  induction l with
  | nil =>
    intro processed s h1 h2
    rw [List.foldl_nil, List.append_nil]
    exact ⟨h1, h2⟩
  | cons c l ih =>
    intro processed s h1 h2
    obtain ⟨s1, b, cnt⟩ := s
    have hstep : (c :: l).foldl (nearStep v) (s1, b, cnt) =
        l.foldl (nearStep v) (nearStep v (s1, b, cnt) c) := rfl
    have happ : processed ++ c :: l = (processed ++ [c]) ++ l := by simp
    rw [hstep, happ]
    have hPlen : (processed ++ [c]).length = processed.length + 1 := by simp
    rcases h2 with ⟨hs1, hproc, hb⟩ | ⟨dmin, hs1, hlt, hdval, hmin, hfirst⟩
    · simp only at hs1 hb h1
      subst hs1 hproc hb
      have hcnt : cnt = 0 := by simpa using h1
      subst hcnt
      have hred : nearStep v (none, 0, 0) c =
          (some (distSq v c), 0, 1) := rfl
      rw [hred]
      refine ih [c] (some (distSq v c), 0, 1) rfl
        (Or.inr ⟨distSq v c, rfl, ?_, ?_, ?_, ?_⟩)
      · simp
      · simp
      · intro j hj
        have hj0 : j = 0 := by simpa using hj
        subst hj0
        simp
      · intro j hj
        dsimp only at hj
        exact absurd hj (Nat.not_lt_zero j)
    · simp only at hs1 hlt hdval hmin hfirst h1
      subst hs1
      by_cases hd : distSq v c < dmin
      · have hred : nearStep v (some dmin, b, cnt) c =
            (some (distSq v c), cnt, cnt + 1) := by
          have h0 : nearStep v (some dmin, b, cnt) c =
              if distSq v c < dmin then (some (distSq v c), cnt, cnt + 1)
              else (some dmin, b, cnt + 1) := rfl
          rw [h0, if_pos hd]
        rw [hred]
        refine ih (processed ++ [c]) (some (distSq v c), cnt, cnt + 1)
          (by simp [h1])
          (Or.inr ⟨distSq v c, rfl, ?_, ?_, ?_, ?_⟩)
        · dsimp only
          rw [hPlen]
          omega
        · dsimp only
          rw [h1,
            List.getD_append_right processed [c] [] processed.length le_rfl]
          simp
        · intro j hj
          rw [hPlen] at hj
          by_cases hjl : j < processed.length
          · rw [List.getD_append processed [c] [] j hjl]
            exact le_of_lt (lt_of_lt_of_le hd (hmin j hjl))
          · have hje : j = processed.length := by omega
            rw [hje,
              List.getD_append_right processed [c] [] processed.length le_rfl]
            simp
        · intro j hj
          dsimp only at hj
          rw [h1] at hj
          rw [List.getD_append processed [c] [] j hj]
          exact lt_of_lt_of_le hd (hmin j hj)
      · have hred : nearStep v (some dmin, b, cnt) c =
            (some dmin, b, cnt + 1) := by
          have h0 : nearStep v (some dmin, b, cnt) c =
              if distSq v c < dmin then (some (distSq v c), cnt, cnt + 1)
              else (some dmin, b, cnt + 1) := rfl
          rw [h0, if_neg hd]
        rw [hred]
        refine ih (processed ++ [c]) (some dmin, b, cnt + 1)
          (by simp [h1])
          (Or.inr ⟨dmin, rfl, ?_, ?_, ?_, ?_⟩)
        · dsimp only
          rw [hPlen]
          omega
        · dsimp only
          rw [List.getD_append processed [c] [] b hlt]
          exact hdval
        · intro j hj
          rw [hPlen] at hj
          by_cases hjl : j < processed.length
          · rw [List.getD_append processed [c] [] j hjl]
            exact hmin j hjl
          · have hje : j = processed.length := by omega
            rw [hje,
              List.getD_append_right processed [c] [] processed.length le_rfl]
            simpa using le_of_not_lt hd
        · intro j hj
          dsimp only at hj
          rw [List.getD_append processed [c] [] j (lt_trans hj hlt)]
          exact hfirst j hj

/-- The argmin characterisation of nearestIdx on a nonempty centroid
list: the index is in range, attains the minimum, and strictly beats
every earlier index. -/
theorem nearestIdx_spec (v : List ℚ) (cs : List (List ℚ)) (h : cs ≠ []) :
    nearestIdx v cs < cs.length ∧
    (∀ j, j < cs.length →
      distSq v (cs.getD (nearestIdx v cs) []) ≤ distSq v (cs.getD j [])) ∧
    (∀ j, j < nearestIdx v cs →
      distSq v (cs.getD (nearestIdx v cs) []) < distSq v (cs.getD j [])) := by
  have hspec := nearFold_spec v cs [] (none, 0, 0) rfl
    (Or.inl ⟨rfl, rfl, rfl⟩)
  rw [List.nil_append] at hspec
  rcases hspec.2 with ⟨_, hnil, _⟩ | ⟨dmin, h1, h2, h3, h4, h5⟩
  · exact absurd hnil h
  · rw [nearestIdx_eq]
    refine ⟨h2, ?_, ?_⟩
    · intro j hj
      rw [← h3]
      exact h4 j hj
    · intro j hj
      rw [← h3]
      exact h5 j hj

/-- The assignment step stays below min k n, for the initial centroid
list (the first k vectors) as well as for any updated centroid list:
the latter carries zero rows above n (when n < k) together with, for
every vector, a witness index below n already at least as close as the
zero row, so the strict-improvement scan never leaves [0, n). -/
theorem kmAssignRange (k n dim : Nat) (vectors : List (List ℚ))
    (hn : vectors.length = n) (hk : 1 ≤ k) (hn1 : 1 ≤ n)
    (cs : List (List ℚ))
    (hcs : cs = vectors.take k ∨
      (cs.length = k ∧ (n < k →
        (∀ j, n ≤ j → j < k → cs.getD j [] = List.replicate dim 0) ∧
        (∀ v ∈ vectors, ∃ j, j < n ∧
          distSq v (cs.getD j []) ≤ distSq v (List.replicate dim 0))))) :
    ∀ v ∈ vectors, nearestIdx v cs < min k n := by
  intro v hv
  rcases hcs with rfl | ⟨hlen, hrest⟩
  · have hlt : (vectors.take k).length = min k n := by
      rw [List.length_take, hn]
    have hne : vectors.take k ≠ [] := by
      intro hnil
      rw [hnil] at hlt
      simp at hlt
      omega
    have hspec := nearestIdx_spec v (vectors.take k) hne
    rw [hlt] at hspec
    exact hspec.1
  · have hne : cs ≠ [] := by
      intro hh
      rw [hh] at hlen
      simp at hlen
      omega
    have hspec := nearestIdx_spec v cs hne
    by_cases hnk : n < k
    · obtain ⟨hzero, hwit⟩ := hrest hnk
      obtain ⟨j, hjn, hle⟩ := hwit v hv
      have hmin : min k n = n := by omega
      rw [hmin]
      by_contra hge
      push_neg at hge
      have hm : nearestIdx v cs < k := by
        rw [← hlen]
        exact hspec.1
      have hrow : cs.getD (nearestIdx v cs) [] = List.replicate dim 0 :=
        hzero _ hge hm
      have hstrict := hspec.2.2 j (lt_of_lt_of_le hjn hge)
      rw [hrow] at hstrict
      exact absurd (lt_of_le_of_lt hle hstrict) (lt_irrefl _)
    · have hmin : min k n = k := by omega
      rw [hmin, ← hlen]
      exact hspec.1

/-- The centroid update of an in-range assignment list restores the
invariant needed by the next assignment step: length k, zero rows
above n, and for every vector a witness index below n at least as
close as the zero row — an empty cluster below n supplies the zero row
itself, and when none is empty the n clusters of the n vectors are
singletons, so each vector's own centroid equals the vector. -/
theorem kmUpdateGood (k n dim : Nat) (vectors : List (List ℚ))
    (hn : vectors.length = n) (hdim : ∀ v ∈ vectors, v.length = dim)
    (asg : List Nat) (halen : asg.length = n)
    (halt : ∀ a ∈ asg, a < min k n) :
    (kmUpdate k dim vectors asg).length = k ∧
    (n < k →
      (∀ j, n ≤ j → j < k →
        (kmUpdate k dim vectors asg).getD j [] = List.replicate dim 0) ∧
      (∀ v ∈ vectors, ∃ j, j < n ∧
        distSq v ((kmUpdate k dim vectors asg).getD j []) ≤
          distSq v (List.replicate dim 0))) := by
  refine ⟨kmUpdate_length k dim vectors asg, ?_⟩
  intro hnk
  have hminn : min k n = n := by omega
  rw [hminn] at halt
  constructor
  · intro j hnj hjk
    apply (kmUpdate_getD k dim vectors asg j hjk).2
    have hfe : ((vectors.zip asg).filter fun p => p.2 == j) = [] := by
      apply List.filter_eq_nil_iff.mpr
      intro p hp
      have hpa : p.2 ∈ asg := (List.of_mem_zip hp).2
      have := halt p.2 hpa
      simp only [beq_iff_eq]
      omega
    rw [hfe]
    rfl
  · intro v hv
    by_cases hemp : ∃ j, j < n ∧
        ((vectors.zip asg).filter fun p => p.2 == j).map Prod.fst = []
    · obtain ⟨j, hjn, hj0⟩ := hemp
      refine ⟨j, hjn, ?_⟩
      rw [(kmUpdate_getD k dim vectors asg j (lt_trans hjn hnk)).2 hj0]
    · push_neg at hemp
      have hsurj : ∀ j, j < n → j ∈ asg := by
        intro j hj
        have hne := hemp j hj
        have hne2 : ((vectors.zip asg).filter fun p => p.2 == j) ≠ [] := by
          intro hh
          rw [hh] at hne
          exact hne rfl
        obtain ⟨p, hp⟩ := List.exists_mem_of_ne_nil _ hne2
        have hpz := List.mem_filter.mp hp
        have hpj : p.2 = j := by simpa using hpz.2
        rw [← hpj]
        exact (List.of_mem_zip hpz.1).2
      have hperm : asg.Perm (List.range n) := asgPerm asg n halen hsurj
      obtain ⟨i, hi, hveq⟩ := List.mem_iff_getElem.mp hv
      have hia : i < asg.length := by omega
      have han : asg[i] < n := halt asg[i] (List.getElem_mem hia)
      have hziplen : i < (vectors.zip asg).length := by
        rw [List.length_zip]
        omega
      have hzip : (v, asg[i]) ∈ vectors.zip asg := by
        apply List.mem_iff_getElem.mpr
        refine ⟨i, hziplen, ?_⟩
        rw [List.getElem_zip, hveq]
      have hmemv : v ∈ ((vectors.zip asg).filter
          fun p => p.2 == asg[i]).map Prod.fst :=
        List.mem_map.mpr
          ⟨(v, asg[i]), List.mem_filter.mpr ⟨hzip, by simp⟩, rfl⟩
      have hcount : asg.count asg[i] = 1 := by
        rw [hperm.count_eq]
        exact count_range_self n asg[i] han
      have hmapsnd : (vectors.zip asg).map Prod.snd = asg :=
        List.map_snd_zip vectors asg (by omega)
      have hlen1 : (((vectors.zip asg).filter
          fun p => p.2 == asg[i]).map Prod.fst).length = 1 := by
        rw [List.length_map, length_filter_eq_countP]
        calc (vectors.zip asg).countP (fun p => p.2 == asg[i])
            = ((vectors.zip asg).map Prod.snd).countP (· == asg[i]) :=
              (List.countP_map (· == asg[i]) Prod.snd (vectors.zip asg)).symm
          _ = asg.countP (· == asg[i]) := by rw [hmapsnd]
          _ = asg.count asg[i] := rfl
          _ = 1 := hcount
      obtain ⟨x, hx⟩ := List.length_eq_one.mp hlen1
      have hxv : v = x := by
        rw [hx] at hmemv
        simpa using hmemv
      subst hxv
      refine ⟨asg[i], han, ?_⟩
      rw [(kmUpdate_getD k dim vectors asg asg[i] (lt_trans han hnk)).1
        (by rw [hx]; simp), hx]
      have hvdim : v.length = dim := hdim v hv
      have hlenv : ((([v] : List (List ℚ)).length : Nat) : ℚ) = 1 := by
        norm_num
      rw [hlenv]
      simp only [List.foldl_cons, List.foldl_nil]
      rw [← hvdim, zipWith_replicate_zero_add]
      have hmap : v.map (· / (1 : ℚ)) = v := by
        simp [div_one]
      rw [hmap, distSq_self]
      exact distSq_nonneg v (List.replicate v.length 0)

/-- Every assignment the Lloyd loop reports after at least one round
lies below min k n. -/
theorem kmLoop_snd (k n dim : Nat) (vectors : List (List ℚ))
    (hn : vectors.length = n) (hk : 1 ≤ k) (hn1 : 1 ≤ n)
    (hdim : ∀ v ∈ vectors, v.length = dim) :
    ∀ (t : Nat) (cs : List (List ℚ)) (asg : List Nat),
    (cs = vectors.take k ∨
      (cs.length = k ∧ (n < k →
        (∀ j, n ≤ j → j < k → cs.getD j [] = List.replicate dim 0) ∧
        (∀ v ∈ vectors, ∃ j, j < n ∧
          distSq v (cs.getD j []) ≤ distSq v (List.replicate dim 0))))) →
    ((kmLoop k dim vectors (t + 1) cs asg).2.length = n ∧
      ∀ a ∈ (kmLoop k dim vectors (t + 1) cs asg).2, a < min k n) := by
  intro t
  induction t with
  | zero =>
    intro cs asg hcs
    have hunfold : kmLoop k dim vectors 1 cs asg =
        (kmUpdate k dim vectors (vectors.map fun v => nearestIdx v cs),
         vectors.map fun v => nearestIdx v cs) := rfl
    rw [hunfold]
    constructor
    · simp [hn]
    · intro a ha
      obtain ⟨v, hv, rfl⟩ := List.mem_map.mp ha
      exact kmAssignRange k n dim vectors hn hk hn1 cs hcs v hv
  | succ t ih =>
    intro cs asg hcs
    have hasg1 : ∀ a ∈ (vectors.map fun v => nearestIdx v cs),
        a < min k n := by
      intro a ha
      obtain ⟨v, hv, rfl⟩ := List.mem_map.mp ha
      exact kmAssignRange k n dim vectors hn hk hn1 cs hcs v hv
    have hunfold : kmLoop k dim vectors (t + 2) cs asg =
        kmLoop k dim vectors (t + 1)
          (kmUpdate k dim vectors (vectors.map fun v => nearestIdx v cs))
          (vectors.map fun v => nearestIdx v cs) := rfl
    rw [hunfold]
    apply ih
    right
    exact kmUpdateGood k n dim vectors hn hdim _ (by simp [hn]) hasg1

/-- The result Record of calculateVectorKMeans on a nonempty target
set, written through the named pieces of the pipeline. -/
theorem calculateVectorKMeans_result (entities : List RawEntity)
    (relations : List RawRelation) (targetType : String) (k : Nat)
    (h0 : ¬ (entities.filter fun e => e.type == targetType).length = 0) :
    (calculateVectorKMeans entities relations targetType k).result =
      (kmTargetNodes entities targetType).enum.foldl
        (fun f p => fun x =>
          if x = p.2.name then
            some ((kmLoop k
              (kmFeatureList entities relations targetType).length
              (kmVectors entities relations targetType) 10
              ((kmVectors entities relations targetType).take k)
              (List.replicate
                (kmVectors entities relations targetType).length 0)).2.getD
              p.1 0)
          else f x)
        (fun _ => none) := by
  simp only [calculateVectorKMeans]
  rw [if_neg h0]
  rfl

/-- Reading the assignment Record built by the final enum fold: a name
of the list is sent to the assignment of one of its indices. -/
theorem enumFold_lookup (assignments : List Nat) :
    ∀ (l : List (Nat × RawEntity)) (f0 : String → Option Nat) (nm : String),
    (nm ∈ l.map (fun p => p.2.name) →
      ∃ i, i ∈ l.map Prod.fst ∧
        (l.foldl (fun f p => fun x =>
          if x = p.2.name then some (assignments.getD p.1 0) else f x)
          f0) nm = some (assignments.getD i 0)) ∧
    (nm ∉ l.map (fun p => p.2.name) →
      (l.foldl (fun f p => fun x =>
        if x = p.2.name then some (assignments.getD p.1 0) else f x)
        f0) nm = f0 nm) := by
  intro l
  induction l with
  | nil =>
    intro f0 nm
    exact ⟨fun h => absurd h (by simp), fun _ => rfl⟩
  | cons q l ih =>
    intro f0 nm
    constructor
    · intro hmem
      by_cases hl : nm ∈ l.map (fun p => p.2.name)
      · obtain ⟨i, hi, heq⟩ := (ih _ nm).1 hl
        exact ⟨i, by simp [hi], heq⟩
      · have hq : nm = q.2.name := by
          rcases List.mem_map.mp hmem with ⟨p, hp, hpe⟩
          rcases List.mem_cons.mp hp with rfl | hp2
          · exact hpe.symm
          · exact absurd (List.mem_map.mpr ⟨p, hp2, hpe⟩) hl
        refine ⟨q.1, by simp, ?_⟩
        have hstep : ((q :: l).foldl (fun f p => fun x =>
            if x = p.2.name then some (assignments.getD p.1 0) else f x)
            f0) nm = (l.foldl (fun f p => fun x =>
            if x = p.2.name then some (assignments.getD p.1 0) else f x)
            ((fun f p => fun x =>
              if x = p.2.name then some (assignments.getD p.1 0) else f x)
              f0 q)) nm := rfl
        rw [hstep, (ih _ nm).2 hl]
        dsimp only
        rw [if_pos hq]
    · intro hmem
      have hnq : nm ≠ q.2.name := fun hh =>
        hmem (List.mem_map.mpr ⟨q, List.mem_cons_self q l, hh.symm⟩)
      have hl : nm ∉ l.map (fun p => p.2.name) := fun hh =>
        hmem (by rw [List.map_cons]; exact List.mem_cons_of_mem _ hh)
      have hstep : ((q :: l).foldl (fun f p => fun x =>
          if x = p.2.name then some (assignments.getD p.1 0) else f x)
          f0) nm = (l.foldl (fun f p => fun x =>
          if x = p.2.name then some (assignments.getD p.1 0) else f x)
          ((fun f p => fun x =>
            if x = p.2.name then some (assignments.getD p.1 0) else f x)
            f0 q)) nm := rfl
      rw [hstep, (ih _ nm).2 hl]
      dsimp only
      rw [if_neg hnq]

/-- Every name of the target list is sent by the assignment fold to
some in-range cluster index of the loop's final assignment list. -/
theorem kmResultRange (targetNodes : List RawEntity)
    (vectors : List (List ℚ)) (dim k : Nat) (hk : 1 ≤ k)
    (hlen : vectors.length = targetNodes.length)
    (hdim : ∀ v ∈ vectors, v.length = dim)
    (hne : targetNodes ≠ []) (nm : String)
    (hnm : nm ∈ targetNodes.map RawEntity.name) :
    ∃ c : Nat,
      (targetNodes.enum.foldl
        (fun f p => fun x =>
          if x = p.2.name then
            some ((kmLoop k dim vectors 10 (vectors.take k)
              (List.replicate vectors.length 0)).2.getD p.1 0)
          else f x)
        (fun _ => none)) nm = some c ∧
      c < min k targetNodes.length := by
  have hn1 : 1 ≤ targetNodes.length :=
    List.length_pos.mpr hne
  have hloop := kmLoop_snd k targetNodes.length dim vectors hlen hk hn1 hdim
    9 (vectors.take k) (List.replicate vectors.length 0) (Or.inl rfl)
  rw [show (9 + 1 : Nat) = 10 from rfl] at hloop
  have hnames : targetNodes.enum.map (fun p => p.2.name) =
      targetNodes.map RawEntity.name := by
    have h := congrArg (List.map RawEntity.name)
      (List.enum_map_snd targetNodes)
    rw [List.map_map] at h
    exact h
  obtain ⟨i, hi, heq⟩ := (enumFold_lookup
    (kmLoop k dim vectors 10 (vectors.take k)
      (List.replicate vectors.length 0)).2
    targetNodes.enum (fun _ => none) nm).1 (by rw [hnames]; exact hnm)
  have hilt : i < targetNodes.length := by
    obtain ⟨q, hq, hqi⟩ := List.mem_map.mp hi
    obtain ⟨t, htl, hqe⟩ := List.mem_iff_getElem.mp hq
    rw [List.getElem_enum] at hqe
    rw [List.enum_length] at htl
    rw [← hqi, ← hqe]
    exact htl
  have hiA : i < (kmLoop k dim vectors 10 (vectors.take k)
      (List.replicate vectors.length 0)).2.length := by
    rw [hloop.1]
    exact hilt
  have hgetD : (kmLoop k dim vectors 10 (vectors.take k)
      (List.replicate vectors.length 0)).2.getD i 0 =
      (kmLoop k dim vectors 10 (vectors.take k)
        (List.replicate vectors.length 0)).2[i] := by
    rw [List.getD_eq_getElem?_getD, List.getElem?_eq_getElem hiA]
    rfl
  refine ⟨(kmLoop k dim vectors 10 (vectors.take k)
    (List.replicate vectors.length 0)).2.getD i 0, heq, ?_⟩
  rw [hgetD]
  exact hloop.2 _ (List.getElem_mem hiA)

set_option maxHeartbeats 800000 in
/-- C4: for k ≥ 1 the k-means result assigns every target-typed entity
a cluster index, the index lies in [0, min(k, n)) for n target
entities, and with k = 1 it is 0. -/
theorem C4_kmeans_range (entities : List RawEntity)
    (relations : List RawRelation) (targetType : String) (k : Nat)
    (hk : 1 ≤ k) (e : RawEntity) (he : e ∈ entities)
    (ht : e.type = targetType) :
    ∃ c : Nat,
      (calculateVectorKMeans entities relations targetType k).result e.name =
        some c ∧
      c < min k (entities.filter fun x => x.type == targetType).length ∧
      (k = 1 → c = 0) := by
  have hmemT : e ∈ entities.filter fun x => x.type == targetType :=
    List.mem_filter.mpr ⟨he, by simp [ht]⟩
  have hTpos : 0 < (entities.filter fun x => x.type == targetType).length :=
    List.length_pos.mpr (List.ne_nil_of_mem hmemT)
  have h0 : ¬ (entities.filter fun e => e.type == targetType).length = 0 := by
    omega
  have hlen : (kmVectors entities relations targetType).length =
      (kmTargetNodes entities targetType).length := by
    simp [kmVectors]
  have hdim : ∀ v ∈ kmVectors entities relations targetType,
      v.length = (kmFeatureList entities relations targetType).length := by
    intro v hv
    obtain ⟨nd, _, rfl⟩ := List.mem_map.mp hv
    simp
  have hne : kmTargetNodes entities targetType ≠ [] :=
    List.ne_nil_of_mem hmemT
  have hnm : e.name ∈ (kmTargetNodes entities targetType).map RawEntity.name :=
    List.mem_map_of_mem RawEntity.name hmemT
  obtain ⟨c, hc1, hc2⟩ := kmResultRange (kmTargetNodes entities targetType)
    (kmVectors entities relations targetType)
    (kmFeatureList entities relations targetType).length k hk hlen hdim hne
    e.name hnm
  refine ⟨c, ?_, hc2, ?_⟩
  · rw [calculateVectorKMeans_result entities relations targetType k h0]
    exact hc1
  · intro hk1
    subst hk1
    have hmin : min 1 (entities.filter fun x =>
        x.type == targetType).length = 1 := by
      omega
    omega

/-- C4 witness: one target-typed entity with no relations and k = 1 —
the single entity is assigned cluster 0. -/
theorem C4_witness :
    ∃ c : Nat,
      (calculateVectorKMeans [⟨"T", "x"⟩] [] "T" 1).result "x" = some c ∧
      c < min 1 (([⟨"T", "x"⟩] : List RawEntity).filter fun x =>
        x.type == "T").length ∧
      (1 = 1 → c = 0) :=
  C4_kmeans_range [⟨"T", "x"⟩] [] "T" 1 (by decide) ⟨"T", "x"⟩ (by decide)
    rfl

theorem lpPass_eq (adj : String → Option (List AdjEntry))
    (order : List GraphNode) (labels0 : String → Nat) :
    lpPass adj order labels0 = order.foldl (lpStep adj) (labels0, false) :=
  rfl

/-- The strict-max scan over the sorted count entries returns its
start value or the cast of one of the entries. -/
theorem bestFold : ∀ (entries : List (Nat × Nat)) (bl : Int × Int),
    entries.foldl (fun (bl : Int × Int) e =>
      if (e.2 : Int) > bl.2 then ((e.1 : Int), (e.2 : Int)) else bl) bl =
      bl ∨
    ∃ e ∈ entries, entries.foldl (fun (bl : Int × Int) e =>
      if (e.2 : Int) > bl.2 then ((e.1 : Int), (e.2 : Int)) else bl) bl =
      ((e.1 : Int), (e.2 : Int)) := by
  intro entries
  induction entries with
  | nil => intro bl; left; rfl
  | cons e l ih =>
    intro bl
    simp only [List.foldl_cons]
    by_cases hd : (e.2 : Int) > bl.2
    · rw [if_pos hd]
      rcases ih ((e.1 : Int), (e.2 : Int)) with h | ⟨e2, he2, h⟩
      · right
        exact ⟨e, List.mem_cons_self e l, h⟩
      · right
        exact ⟨e2, List.mem_cons_of_mem e he2, h⟩
    · rw [if_neg hd]
      rcases ih bl with h | ⟨e2, he2, h⟩
      · left
        exact h
      · right
        exact ⟨e2, List.mem_cons_of_mem e he2, h⟩

/-- Every key of the neighbour-label count map is the label of one of
the neighbours. -/
theorem countsKeys (labels : String → Nat) :
    ∀ (nbs : List AdjEntry) (m : List (Nat × Nat)) (q : Nat × Nat),
    q ∈ nbs.foldl (fun m nb =>
      mapSet m (labels nb.id) ((mapGet m (labels nb.id)).getD 0 + 1)) m →
    q ∈ m ∨ ∃ nb ∈ nbs, q.1 = labels nb.id := by
  intro nbs
  induction nbs with
  | nil => intro m q h; exact Or.inl h
  | cons nb nbs ih =>
    intro m q h
    simp only [List.foldl_cons] at h
    rcases ih _ q h with h2 | ⟨nb2, hnb2, he⟩
    · rcases mem_mapSet _ _ _ q h2 with he | hm
      · right
        exact ⟨nb, List.mem_cons_self _ _, by rw [he]⟩
      · left
        exact hm
    · right
      exact ⟨nb2, List.mem_cons_of_mem _ hnb2, he⟩

/-- Every entry of an adjacency list names the other endpoint of one
of the links whose near endpoint is the key. -/
theorem getAdjacency_mem (nodes : List GraphNode) (w : Bool)
    (links : List GraphLink) :
    ∀ (x : String) (l : List AdjEntry) (nb : AdjEntry),
    getAdjacency nodes links w x = some l → nb ∈ l →
    ∃ lk ∈ links, (lk.source = x ∧ nb.id = lk.target) ∨
      (lk.target = x ∧ nb.id = lk.source) := by
  have key : ∀ (ls : List GraphLink), (∀ lk ∈ ls, lk ∈ links) →
      ∀ (f : String → Option (List AdjEntry)),
      (∀ x l nb, f x = some l → nb ∈ l → ∃ lk ∈ links,
        (lk.source = x ∧ nb.id = lk.target) ∨
        (lk.target = x ∧ nb.id = lk.source)) →
      ∀ x l nb, (ls.foldl (adjStep w) f) x = some l → nb ∈ l →
      ∃ lk ∈ links, (lk.source = x ∧ nb.id = lk.target) ∨
        (lk.target = x ∧ nb.id = lk.source) := by
    intro ls
    induction ls with
    | nil => intro _ f hf x l nb h1 h2; exact hf x l nb h1 h2
    | cons lk ls ih =>
      intro hsub f hf
      simp only [List.foldl_cons]
      apply ih (fun a ha => hsub a (List.mem_cons_of_mem lk ha))
      intro x l nb h1 h2
      have hlkm : lk ∈ links := hsub lk (List.mem_cons_self lk ls)
      simp only [adjStep] at h1
      by_cases hxt : x = lk.target
      · rw [if_pos hxt] at h1
        by_cases hts : lk.target = lk.source
        · rw [if_pos hts] at h1
          obtain ⟨l1, hl1, rfl⟩ := Option.map_eq_some'.mp h1
          obtain ⟨l0, hl0, rfl⟩ := Option.map_eq_some'.mp hl1
          rcases List.mem_append.mp h2 with h3 | h3
          · rcases List.mem_append.mp h3 with h4 | h4
            · exact hf x l0 nb
                (by rw [hxt, hts]; exact hl0) h4
            · have hnb : nb = ⟨lk.target, linkW w lk⟩ :=
                List.mem_singleton.mp h4
              refine ⟨lk, hlkm, Or.inl ⟨?_, ?_⟩⟩
              · rw [hxt, hts]
              · rw [hnb]
          · have hnb : nb = ⟨lk.source, linkW w lk⟩ :=
              List.mem_singleton.mp h3
            refine ⟨lk, hlkm, Or.inr ⟨hxt.symm, ?_⟩⟩
            rw [hnb]
        · rw [if_neg hts] at h1
          obtain ⟨l1, hl1, rfl⟩ := Option.map_eq_some'.mp h1
          rcases List.mem_append.mp h2 with h3 | h3
          · exact hf x l1 nb (by rw [hxt]; exact hl1) h3
          · have hnb : nb = ⟨lk.source, linkW w lk⟩ :=
              List.mem_singleton.mp h3
            refine ⟨lk, hlkm, Or.inr ⟨hxt.symm, ?_⟩⟩
            rw [hnb]
      · rw [if_neg hxt] at h1
        by_cases hxs : x = lk.source
        · rw [if_pos hxs] at h1
          obtain ⟨l0, hl0, rfl⟩ := Option.map_eq_some'.mp h1
          rcases List.mem_append.mp h2 with h3 | h3
          · exact hf x l0 nb (by rw [hxs]; exact hl0) h3
          · have hnb : nb = ⟨lk.target, linkW w lk⟩ :=
              List.mem_singleton.mp h3
            refine ⟨lk, hlkm, Or.inl ⟨hxs.symm, ?_⟩⟩
            rw [hnb]
        · rw [if_neg hxs] at h1
          exact hf x l nb h1 h2
  intro x l nb h1 h2
  refine key links (fun a ha => ha) _ ?_ x l nb h1 h2
  intro x2 l2 nb2 hb1 hb2
  by_cases hc : (nodes.map GraphNode.id).contains x2
  · rw [if_pos hc] at hb1
    rw [← Option.some.inj hb1] at hb2
    simp at hb2
  · rw [if_neg hc] at hb1
    exact absurd hb1 (by simp)

/-- Reading the initial labelling: a node id of the list is sent to
the index of one of its occurrences. -/
theorem enumFold0_lookup :
    ∀ (l : List (Nat × GraphNode)) (f0 : String → Nat) (x : String),
    (x ∈ l.map (fun p => p.2.id) →
      ∃ p, p ∈ l ∧ p.2.id = x ∧
        (l.foldl (fun f p => fun y =>
          if y = p.2.id then p.1 else f y) f0) x = p.1) ∧
    (x ∉ l.map (fun p => p.2.id) →
      (l.foldl (fun f p => fun y =>
        if y = p.2.id then p.1 else f y) f0) x = f0 x) := by
  intro l
  induction l with
  | nil =>
    intro f0 x
    exact ⟨fun h => absurd h (by simp), fun _ => rfl⟩
  | cons q l ih =>
    intro f0 x
    constructor
    · intro hmem
      by_cases hl : x ∈ l.map (fun p => p.2.id)
      · obtain ⟨p, hp, hpid, heq⟩ := (ih _ x).1 hl
        exact ⟨p, List.mem_cons_of_mem q hp, hpid, heq⟩
      · have hq : x = q.2.id := by
          rcases List.mem_map.mp hmem with ⟨p, hp, hpe⟩
          rcases List.mem_cons.mp hp with rfl | hp2
          · exact hpe.symm
          · exact absurd (List.mem_map.mpr ⟨p, hp2, hpe⟩) hl
        refine ⟨q, List.mem_cons_self q l, hq.symm, ?_⟩
        have hstep : ((q :: l).foldl (fun f p => fun y =>
            if y = p.2.id then p.1 else f y) f0) x =
            (l.foldl (fun f p => fun y =>
              if y = p.2.id then p.1 else f y)
              ((fun f p => fun y =>
                if y = p.2.id then p.1 else f y) f0 q)) x := rfl
        rw [hstep, (ih _ x).2 hl]
        dsimp only
        rw [if_pos hq]
    · intro hmem
      have hnq : x ≠ q.2.id := fun hh =>
        hmem (List.mem_map.mpr ⟨q, List.mem_cons_self q l, hh.symm⟩)
      have hl : x ∉ l.map (fun p => p.2.id) := fun hh =>
        hmem (by rw [List.map_cons]; exact List.mem_cons_of_mem _ hh)
      have hstep : ((q :: l).foldl (fun f p => fun y =>
          if y = p.2.id then p.1 else f y) f0) x =
          (l.foldl (fun f p => fun y =>
            if y = p.2.id then p.1 else f y)
            ((fun f p => fun y =>
              if y = p.2.id then p.1 else f y) f0 q)) x := rfl
      rw [hstep, (ih _ x).2 hl]
      dsimp only
      rw [if_neg hnq]

theorem indexOf_ne_of_ne (l : List Nat) (a b : Nat) (ha : a ∈ l)
    (hb : b ∈ l) (hab : a ≠ b) : l.indexOf a ≠ l.indexOf b := by
  intro h
  apply hab
  have hal : l.indexOf a < l.length := List.indexOf_lt_length.mpr ha
  have hbl : l.indexOf b < l.length := List.indexOf_lt_length.mpr hb
  calc a = l[l.indexOf a] := (List.getElem_indexOf hal).symm
    _ = l[l.indexOf b] := by simp [h]
    _ = b := List.getElem_indexOf hbl

theorem addSetFold_mono (labels : String → Nat) :
    ∀ (xs : List String) (u0 : List Nat) (a : Nat), a ∈ u0 →
    a ∈ xs.foldl (fun u y => addSet u (labels y)) u0 := by
  intro xs
  induction xs with
  | nil => intro u0 a ha; exact ha
  | cons y xs ih =>
    intro u0 a ha
    simp only [List.foldl_cons]
    exact ih _ a ((addSet_mem _ _ _).mpr (Or.inl ha))

theorem addSetFold_mem (labels : String → Nat) :
    ∀ (xs : List String) (u0 : List Nat) (x : String), x ∈ xs →
    labels x ∈ xs.foldl (fun u y => addSet u (labels y)) u0 := by
  intro xs
  induction xs with
  | nil => intro u0 x hx; simp at hx
  | cons y xs ih =>
    intro u0 x hx
    simp only [List.foldl_cons]
    rcases List.mem_cons.mp hx with rfl | hx2
    · exact addSetFold_mono labels xs _ (labels x)
        ((addSet_mem _ _ _).mpr (Or.inr rfl))
    · exact ih _ x hx2

/-- One label-propagation visit preserves the side invariant: a node
only ever adopts a label held by one of its neighbours, and in a graph
whose adjacency never crosses sides every label keeps the side of its
holder. -/
theorem lpStep_side (adj : String → Option (List AdjEntry))
    (ids : List String) (S : String → Bool) (sl : Nat → Bool)
    (hnone : ∀ x, x ∉ ids → adj x = none)
    (hadj : ∀ x, x ∈ ids → ∀ l, adj x = some l → ∀ nb ∈ l,
      nb.id ∈ ids ∧ S nb.id = S x)
    (acc : (String → Nat) × Bool) (n : GraphNode)
    (hinv : ∀ x ∈ ids, sl (acc.1 x) = S x) :
    ∀ x ∈ ids, sl ((lpStep adj acc n).1 x) = S x := by
  intro x hx
  by_cases hemp : ((adj n.id).getD []).isEmpty
  · have hred : lpStep adj acc n = acc := by
      simp only [lpStep]
      rw [if_pos hemp]
    rw [hred]
    exact hinv x hx
  · cases hsome : adj n.id with
    | none =>
      exact absurd (by rw [hsome]; rfl) hemp
    | some nl =>
      have hnid : n.id ∈ ids := by
        by_contra hc
        rw [hnone n.id hc] at hsome
        exact Option.noConfusion hsome
      simp only [lpStep]
      rw [if_neg hemp]
      split_ifs with hC
      · dsimp only
        by_cases hxn : x = n.id
        · rw [if_pos hxn, hxn]
          obtain ⟨hb1, _⟩ := hC
          rcases bestFold
            (sSort (fun a b => decide (a.1 ≤ b.1))
              (((adj n.id).getD []).foldl
                (fun m nb => mapSet m (acc.1 nb.id)
                  ((mapGet m (acc.1 nb.id)).getD 0 + 1))
                ([] : List (Nat × Nat))))
            ((-1 : Int), (-1 : Int)) with hbf | ⟨e, he, hbf⟩
          · rw [hbf] at hb1
            simp at hb1
          · rw [hbf]
            have he2 : e ∈ ((adj n.id).getD []).foldl
                (fun m nb => mapSet m (acc.1 nb.id)
                  ((mapGet m (acc.1 nb.id)).getD 0 + 1))
                ([] : List (Nat × Nat)) :=
              ((sSort_perm _ _).mem_iff).mp he
            rcases countsKeys acc.1 ((adj n.id).getD []) [] e he2 with
              h0 | ⟨nb, hnb, hkey⟩
            · simp at h0
            · have hnbl : nb ∈ nl := by
                rw [hsome] at hnb
                exact hnb
              obtain ⟨hnbid, hnbS⟩ := hadj n.id hnid nl hsome nb hnbl
              have hlab := hinv nb.id hnbid
              dsimp only
              rw [Int.toNat_natCast, hkey, hlab, hnbS]
        · rw [if_neg hxn]
          exact hinv x hx
      · exact hinv x hx

/-- A whole pass preserves the side invariant. -/
theorem lpPass_side (adj : String → Option (List AdjEntry))
    (ids : List String) (S : String → Bool) (sl : Nat → Bool)
    (hnone : ∀ x, x ∉ ids → adj x = none)
    (hadj : ∀ x, x ∈ ids → ∀ l, adj x = some l → ∀ nb ∈ l,
      nb.id ∈ ids ∧ S nb.id = S x) :
    ∀ (order : List GraphNode) (acc : (String → Nat) × Bool),
    (∀ x ∈ ids, sl (acc.1 x) = S x) →
    ∀ x ∈ ids, sl ((order.foldl (lpStep adj) acc).1 x) = S x := by
  intro order
  induction order with
  | nil => intro acc h; exact h
  | cons n order ih =>
    intro acc h
    simp only [List.foldl_cons]
    exact ih _ (lpStep_side adj ids S sl hnone hadj acc n h)

/-- The whole propagation loop preserves the side invariant, whatever
the visiting orders. -/
theorem lpLoop_side (adj : String → Option (List AdjEntry))
    (orders : Nat → List GraphNode)
    (ids : List String) (S : String → Bool) (sl : Nat → Bool)
    (hnone : ∀ x, x ∉ ids → adj x = none)
    (hadj : ∀ x, x ∈ ids → ∀ l, adj x = some l → ∀ nb ∈ l,
      nb.id ∈ ids ∧ S nb.id = S x) :
    ∀ (fuel i : Nat) (labels : String → Nat),
    (∀ x ∈ ids, sl (labels x) = S x) →
    ∀ x ∈ ids, sl (lpLoop adj orders i fuel labels x) = S x := by
  intro fuel
  induction fuel with
  | zero => intro i labels h x hx; exact h x hx
  | succ fuel ih =>
    intro i labels h x hx
    have hpass : ∀ y ∈ ids,
        sl ((lpPass adj (orders i) labels).1 y) = S y := by
      intro y hy
      rw [lpPass_eq]
      exact lpPass_side adj ids S sl hnone hadj (orders i)
        (labels, false) h y hy
    have hstep : lpLoop adj orders i (fuel + 1) labels =
        if (lpPass adj (orders i) labels).2 then
          lpLoop adj orders (i + 1) fuel (lpPass adj (orders i) labels).1
        else (lpPass adj (orders i) labels).1 := rfl
    rw [hstep]
    by_cases hr : (lpPass adj (orders i) labels).2
    · rw [if_pos hr]
      exact ih (i + 1) _ hpass x hx
    · rw [if_neg hr]
      exact hpass x hx

/-- C9: whenever the induced two-type subgraph splits into sides with
no cross-side edge (S names the side of each id) and both sides are
inhabited, the community detector ends with at least two distinct
community values, for EVERY sequence of visiting orders: a node only
ever adopts a label held by one of its neighbours, so labels never
cross component boundaries. -/
theorem C9_two_components (entities : List RawEntity)
    (relations : List RawRelation) (frontType backType : String)
    (orders : Nat → List GraphNode) (S : String → Bool) (u w : String)
    (hu : u ∈ ((entities.filter fun e => e.type == frontType) ++
      (entities.filter fun e => e.type == backType)).map RawEntity.name)
    (hw : w ∈ ((entities.filter fun e => e.type == frontType) ++
      (entities.filter fun e => e.type == backType)).map RawEntity.name)
    (hSu : S u = true) (hSw : S w = false)
    (hcross : ∀ r ∈ relations,
      r.source ∈ ((entities.filter fun e => e.type == frontType) ++
        (entities.filter fun e => e.type == backType)).map RawEntity.name →
      r.target ∈ ((entities.filter fun e => e.type == frontType) ++
        (entities.filter fun e => e.type == backType)).map RawEntity.name →
      S r.source = S r.target) :
    ∃ nd1 ∈ (calculateBipartiteCommunity entities relations frontType
      backType orders).nodes,
    ∃ nd2 ∈ (calculateBipartiteCommunity entities relations frontType
      backType orders).nodes, nd1.community ≠ nd2.community := by
  have hids : (bcNodes entities frontType backType).map GraphNode.id =
      ((entities.filter fun e => e.type == frontType) ++
        (entities.filter fun e => e.type == backType)).map RawEntity.name := by
    simp only [bcNodes, List.map_map]
    rfl
  have hnodes : (calculateBipartiteCommunity entities relations frontType
      backType orders).nodes =
    (bcNodes entities frontType backType).map (fun n =>
      { n with community := (bcUnique entities relations frontType backType
        orders).indexOf (bcLabels entities relations frontType backType
        orders n.id) }) := rfl
  have hnone : ∀ x,
      x ∉ (bcNodes entities frontType backType).map GraphNode.id →
      getAdjacency (bcNodes entities frontType backType)
        (bcLinks entities relations frontType backType) false x = none :=
    fun x hx => getAdjacency_eq_none _ _ false x hx
  have hadj : ∀ x,
      x ∈ (bcNodes entities frontType backType).map GraphNode.id →
      ∀ l, getAdjacency (bcNodes entities frontType backType)
        (bcLinks entities relations frontType backType) false x = some l →
      ∀ nb ∈ l,
        nb.id ∈ (bcNodes entities frontType backType).map GraphNode.id ∧
        S nb.id = S x := by
    intro x _ l hl nb hnb
    obtain ⟨lk, hlk, hcase⟩ := getAdjacency_mem
      (bcNodes entities frontType backType) false
      (bcLinks entities relations frontType backType) x l nb hl hnb
    obtain ⟨r, hrf, rfl⟩ := List.mem_map.mp hlk
    have hrm := List.mem_filter.mp hrf
    have hr1 := hrm.1
    have hconds := hrm.2
    simp only [Bool.and_eq_true] at hconds
    have hsrc : r.source ∈ ((entities.filter fun e =>
        e.type == frontType) ++
        (entities.filter fun e => e.type == backType)).map RawEntity.name :=
      by simpa using hconds.1.1
    have htgt : r.target ∈ ((entities.filter fun e =>
        e.type == frontType) ++
        (entities.filter fun e => e.type == backType)).map RawEntity.name :=
      by simpa using hconds.1.2
    have hST := hcross r hr1 hsrc htgt
    rcases hcase with ⟨hs, hnbid⟩ | ⟨ht, hnbid⟩
    · dsimp only at hs hnbid
      constructor
      · rw [hids, hnbid]
        exact htgt
      · rw [hnbid, ← hs]
        exact hST.symm
    · dsimp only at ht hnbid
      constructor
      · rw [hids, hnbid]
        exact hsrc
      · rw [hnbid, ← ht]
        exact hST
  have hlab0 : ∀ x ∈ (bcNodes entities frontType backType).map GraphNode.id,
      S (((bcNodes entities frontType backType).map GraphNode.id).getD
        (bcLabels0 entities frontType backType x) "") = S x := by
    intro x hx
    have hq := congrArg (List.map GraphNode.id)
      (List.enum_map_snd (bcNodes entities frontType backType))
    rw [List.map_map] at hq
    have hxe : x ∈ (bcNodes entities frontType backType).enum.map
        (fun p => p.2.id) := by
      show x ∈ (bcNodes entities frontType backType).enum.map
        (GraphNode.id ∘ Prod.snd)
      rw [hq]
      exact hx
    obtain ⟨p, hp, hpid, heq⟩ := (enumFold0_lookup
      (bcNodes entities frontType backType).enum (fun _ => 0) x).1 hxe
    obtain ⟨t, htl, hqe⟩ := List.mem_iff_getElem.mp hp
    rw [List.getElem_enum] at hqe
    rw [List.enum_length] at htl
    have hlab0x : bcLabels0 entities frontType backType x = p.1 := heq
    rw [hlab0x, ← hqe]
    dsimp only
    have hgd : ((bcNodes entities frontType backType).map
        GraphNode.id).getD t "" =
        (bcNodes entities frontType backType)[t].id := by
      rw [List.getD_eq_getElem?_getD, List.getElem?_map,
        List.getElem?_eq_getElem htl]
      rfl
    rw [hgd]
    rw [← hqe] at hpid
    dsimp only at hpid
    rw [hpid]
  have hfin : ∀ x ∈ (bcNodes entities frontType backType).map GraphNode.id,
      S (((bcNodes entities frontType backType).map GraphNode.id).getD
        (bcLabels entities relations frontType backType orders x) "") =
        S x := by
    intro x hx
    exact lpLoop_side
      (getAdjacency (bcNodes entities frontType backType)
        (bcLinks entities relations frontType backType) false)
      orders ((bcNodes entities frontType backType).map GraphNode.id) S
      (fun lab => S (((bcNodes entities frontType backType).map
        GraphNode.id).getD lab ""))
      hnone hadj 20 0 (bcLabels0 entities frontType backType) hlab0 x hx
  have hu2 : u ∈ (bcNodes entities frontType backType).map GraphNode.id := by
    rw [hids]
    exact hu
  have hw2 : w ∈ (bcNodes entities frontType backType).map GraphNode.id := by
    rw [hids]
    exact hw
  have hlne : bcLabels entities relations frontType backType orders u ≠
      bcLabels entities relations frontType backType orders w := by
    intro hEq
    have h1 := hfin u hu2
    have h2 := hfin w hw2
    rw [hEq] at h1
    have hSuw : S u = S w := h1.symm.trans h2
    rw [hSu, hSw] at hSuw
    exact Bool.noConfusion hSuw
  have humem : bcLabels entities relations frontType backType orders u ∈
      bcUnique entities relations frontType backType orders :=
    addSetFold_mem (bcLabels entities relations frontType backType orders)
      ((bcNodes entities frontType backType).map GraphNode.id) [] u hu2
  have hwmem : bcLabels entities relations frontType backType orders w ∈
      bcUnique entities relations frontType backType orders :=
    addSetFold_mem (bcLabels entities relations frontType backType orders)
      ((bcNodes entities frontType backType).map GraphNode.id) [] w hw2
  have hio := indexOf_ne_of_ne
    (bcUnique entities relations frontType backType orders)
    (bcLabels entities relations frontType backType orders u)
    (bcLabels entities relations frontType backType orders w)
    humem hwmem hlne
  obtain ⟨nu, hnu, hnuid⟩ := List.mem_map.mp hu2
  obtain ⟨nw, hnw, hnwid⟩ := List.mem_map.mp hw2
  rw [hnodes]
  refine ⟨_, List.mem_map_of_mem _ hnu, _, List.mem_map_of_mem _ hnw, ?_⟩
  dsimp only
  rw [hnuid, hnwid]
  exact hio

/-- C9 witness: two front/back pairs forming two disconnected
components — the detector separates f1/b1 from f2/b2 for the constant
empty visiting order. -/
theorem C9_witness :
    ∃ nd1 ∈ (calculateBipartiteCommunity
      [⟨"F", "f1"⟩, ⟨"B", "b1"⟩, ⟨"F", "f2"⟩, ⟨"B", "b2"⟩]
      [⟨"f1", "r", "b1"⟩, ⟨"f2", "r", "b2"⟩] "F" "B"
      (fun _ => [])).nodes,
    ∃ nd2 ∈ (calculateBipartiteCommunity
      [⟨"F", "f1"⟩, ⟨"B", "b1"⟩, ⟨"F", "f2"⟩, ⟨"B", "b2"⟩]
      [⟨"f1", "r", "b1"⟩, ⟨"f2", "r", "b2"⟩] "F" "B"
      (fun _ => [])).nodes, nd1.community ≠ nd2.community :=
  C9_two_components
    [⟨"F", "f1"⟩, ⟨"B", "b1"⟩, ⟨"F", "f2"⟩, ⟨"B", "b2"⟩]
    [⟨"f1", "r", "b1"⟩, ⟨"f2", "r", "b2"⟩] "F" "B" (fun _ => [])
    (fun s => s == "f1" || s == "b1") "f1" "f2"
    (by decide) (by decide) (by decide) (by decide) (by decide)

/-- C10 witness: the theorem applied to the one-node graph with a
self-loop and to a duplicated edge. -/
theorem C10_witness :
    (getAdjacency [{ id := "a" }] ([] ++ [{ source := "a", target := "a" }])
        false "a" =
      (getAdjacency [{ id := "a" }] [] false "a").map
        (· ++ [⟨"a", 1⟩, ⟨"a", 1⟩])) ∧
    getAdjacency [{ id := "a" }, { id := "b" }]
        ([{ source := "a", target := "b" }] ++ [{ source := "a", target := "b" }])
        false "a" =
      (getAdjacency [{ id := "a" }, { id := "b" }]
        [{ source := "a", target := "b" }] false "a").map (· ++ [⟨"b", 1⟩]) :=
  ⟨((C10_self_loops_and_multiplicity [{ id := "a" }] [] "a" (by decide)
      { source := "a", target := "a" }).1 rfl rfl).1,
   (C10_self_loops_and_multiplicity [{ id := "a" }, { id := "b" }]
      [{ source := "a", target := "b" }] "a" (by decide)
      { source := "a", target := "b" }).2.1 rfl (by decide)⟩

end TCMKG
